import Mathlib

/-!
# sys-junk-cleaner: a shallow embedding of `main.go`

The program walks every root directory, classifies the walked entries with
one glob matcher per catalog pattern, lists the matches, asks for a
confirmation and removes the matched entries.

Go strings are modelled as lists of runes (`List Char`).  The pieces of the
Go standard library and of `github.com/gobwas/glob` that `main.go` calls are
not part of the repository; they are modelled after the libraries, and every
such definition says in its doc comment which library function it stands for
and where the model is narrower than the library.
-/

namespace SysJunkCleaner

set_option maxRecDepth 100000

/-- A Go string, as its sequence of runes. -/
abbrev GoString := List Char

/-! ## `strings` -/

/-- Go's `strings.ToLower`: every rune is mapped by `unicode.ToLower`.  The
model maps the ASCII letters `A`..`Z` to `a`..`z` and leaves every other rune
unchanged; Go also maps the upper-case runes outside ASCII (`É` to `é`, the
Kelvin sign U+212A to `k`), which the model leaves as they are. -/
def strings_ToLower (s : GoString) : GoString := s.map Char.toLower

/-! ## `github.com/gobwas/glob`

`glob.MustCompile(pattern, '/')` runs the library's lexer
(`syntax/lexer`), its parser (`syntax/ast`) and its compiler (`compiler`).
-/

/-- The tokens of `syntax/lexer` (`EOF` is the end of the token list and
`Error` is the `none` result of the lexer). -/
inductive Token where
  | Text (raw : GoString)
  | Any
  | Super
  | Single
  | Not
  | Separator
  | RangeOpen
  | RangeClose
  | RangeLo (r : Char)
  | RangeHi (r : Char)
  | RangeBetween
  | TermsOpen
  | TermsClose
  deriving DecidableEq, Repr

/-- The lexer's `Special`: the runes of `specials`, which are `*`, `?`, the
backslash, `[`, `]`, `{` and `}`. -/
def Special (c : Char) : Bool :=
  c == '*' || c == '?' || c == '\\' || c == '[' || c == ']' || c == '{' || c == '}'

/-- Go's `utf8.RuneError`, U+FFFD: what the decoding of a string yields for
bytes that are not UTF-8, and for the encoding of U+FFFD itself. -/
def RuneError : Char := Char.ofNat 0xFFFD

/-- The text token `fetchText` pushes: none when no rune was collected. -/
def flushText (data : GoString) : List Token :=
  if data.isEmpty then [] else [Token.Text data]

mutual
/-- The lexer's `fetchItem` and `fetchText`, one rune at a time.
`termsLevel` counts the open brace groups, `data` is the text collected so
far, `escaped` says that the rune before was an unescaped backslash, and
`star` that it was an unescaped `*` whose token (`Any`, or `Super` when a
second `*` follows) is not pushed yet. -/
def lexMain (termsLevel : Nat) (data : GoString) (escaped star : Bool) :
    GoString → Option (List Token)
  | [] => some (flushText data ++ (if star then [Token.Any] else []))
  | r :: rest =>
    if star && r == '*' then
      (lexMain termsLevel [] false false rest).map (fun ts => Token.Super :: ts)
    else
      (if escaped then lexMain termsLevel (data ++ [r]) false false rest
      else if r == '\\' then lexMain termsLevel data true false rest
      else if r == '{' then
        (lexMain (termsLevel + 1) [] false false rest).map
          (fun ts => flushText data ++ Token.TermsOpen :: ts)
      else if r == ',' && termsLevel != 0 then
        (lexMain termsLevel [] false false rest).map
          (fun ts => flushText data ++ Token.Separator :: ts)
      else if r == '}' && termsLevel != 0 then
        (lexMain (termsLevel - 1) [] false false rest).map
          (fun ts => flushText data ++ Token.TermsClose :: ts)
      else if r == '[' then
        (lexRange termsLevel false rest).map
          (fun ts => flushText data ++ Token.RangeOpen :: ts)
      else if r == '?' then
        (lexMain termsLevel [] false false rest).map
          (fun ts => flushText data ++ Token.Single :: ts)
      else if r == '*' then
        (lexMain termsLevel [] false true rest).map (fun ts => flushText data ++ ts)
      else lexMain termsLevel (data ++ [r]) false false rest).map
        (fun ts => (if star then [Token.Any] else []) ++ ts)
/-- The lexer's `fetchRange` before a range or a character list was read;
`seenNot` says that the negation mark `!` was read. -/
def lexRange (termsLevel : Nat) (seenNot : Bool) : GoString → Option (List Token)
  | [] => none
  | r :: rest =>
    if !seenNot && r == '!' then
      (lexRange termsLevel true rest).map (fun ts => Token.Not :: ts)
    else lexRangeFirst termsLevel r rest
/-- The lexer's `fetchRange` after the rune `r`: a `-` next makes `r` the
lower end of a range, anything else makes `r` the first rune of a character
list, read by `fetchText` with the single breaker `]`.  A list that is empty
(`r` is the closing `]`) is refused here; in the library the parser refuses
it (`could not parse range`). -/
def lexRangeFirst (termsLevel : Nat) (r : Char) : GoString → Option (List Token)
  | [] => none
  | r2 :: rest =>
    if r2 == '-' then
      (lexRangeHi termsLevel rest).map
        (fun ts => Token.RangeLo r :: Token.RangeBetween :: ts)
    else if r == '\\' then lexRangeText termsLevel [r2] false rest
    else if r == ']' then none
    else if r2 == '\\' then lexRangeText termsLevel [r] true rest
    else if r2 == ']' then
      (lexMain termsLevel [] false false rest).map
        (fun ts => Token.Text [r] :: Token.RangeClose :: ts)
    else lexRangeText termsLevel [r, r2] false rest
/-- The lexer's `fetchRange` with `wantHi` set: the next rune is the upper
end of the range. -/
def lexRangeHi (termsLevel : Nat) : GoString → Option (List Token)
  | [] => none
  | r :: rest => (lexRangeClose termsLevel rest).map (fun ts => Token.RangeHi r :: ts)
/-- The lexer's `fetchRange` with `wantClose` set: the next rune must be `]`
(`expected close range character` otherwise). -/
def lexRangeClose (termsLevel : Nat) : GoString → Option (List Token)
  | [] => none
  | r :: rest =>
    if r == ']' then
      (lexMain termsLevel [] false false rest).map (fun ts => Token.RangeClose :: ts)
    else none
/-- The lexer's `fetchText` with the single breaker `]`, called by
`fetchRange` for a character list; the end of the input before the closing
`]` is an error (`unexpected end of input`). -/
def lexRangeText (termsLevel : Nat) (data : GoString) (escaped : Bool) :
    GoString → Option (List Token)
  | [] => none
  | r :: rest =>
    if escaped then lexRangeText termsLevel (data ++ [r]) false rest
    else if r == '\\' then lexRangeText termsLevel data true rest
    else if r == ']' then
      (lexMain termsLevel [] false false rest).map
        (fun ts => flushText data ++ Token.RangeClose :: ts)
    else lexRangeText termsLevel (data ++ [r]) false rest
end

/-- The token list of a pattern, `none` when the lexer reports an error.
The lexer's `peek`, through which every rune is read, reports
`could not read rune` when the rune is `utf8.RuneError`; the runes of a
pattern are all read unless an error ends the lexing before, so a pattern
that holds this rune has no token list. -/
def lexer (pattern : GoString) : Option (List Token) :=
  if RuneError ∈ pattern then none else lexMain 0 [] false false pattern


/-- The nodes of `syntax/ast`: a pattern is a list of nodes, `AnyOf` holds
the alternative patterns of a brace group. -/
inductive Node where
  | Text (text : GoString)
  | Any
  | Super
  | Single
  | List (chars : GoString) (not : Bool)
  | Range (lo hi : Char) (not : Bool)
  | AnyOf (alts : List (List Node))
  deriving Repr

/-- An open brace group while parsing: the nodes of the enclosing pattern
read before the group, and the alternatives of the group already finished. -/
structure Frame where
  before : List Node
  alts : List (List Node)

/-- The tree the parser returns at the end of the input.  A brace group that
is still open then stays in the tree as it stands, its last alternative being
the pattern read last. -/
def closeAll : List Frame → List Node → List Node
  | [], cur => cur
  | f :: stack, cur => closeAll stack (f.before ++ [Node.AnyOf (f.alts ++ [cur])])

mutual
/-- The parser's `parserMain`: `cur` holds the nodes of the pattern being
read, `stack` the open brace groups, innermost first. -/
def parserMain (stack : List Frame) (cur : List Node) : List Token → Option (List Node)
  | [] => some (closeAll stack cur)
  | tok :: toks =>
    match tok with
    | Token.Text raw => parserMain stack (cur ++ [Node.Text raw]) toks
    | Token.Any => parserMain stack (cur ++ [Node.Any]) toks
    | Token.Super => parserMain stack (cur ++ [Node.Super]) toks
    | Token.Single => parserMain stack (cur ++ [Node.Single]) toks
    | Token.RangeOpen => parserRange stack cur false (Char.ofNat 0) (Char.ofNat 0) [] toks
    | Token.TermsOpen => parserMain ({ before := cur, alts := [] } :: stack) [] toks
    | Token.Separator =>
      match stack with
      | f :: st => parserMain ({ before := f.before, alts := f.alts ++ [cur] } :: st) [] toks
      | [] => none
    | Token.TermsClose =>
      match stack with
      | f :: st => parserMain st (f.before ++ [Node.AnyOf (f.alts ++ [cur])]) toks
      | [] => none
    | _ => none
/-- The parser's `parserRange`, with its local variables `not`, `lo`, `hi`
and `chars`. -/
def parserRange (stack : List Frame) (cur : List Node) (not : Bool) (lo hi : Char)
    (chars : GoString) : List Token → Option (List Node)
  | [] => none
  | tok :: toks =>
    match tok with
    | Token.Not => parserRange stack cur true lo hi chars toks
    | Token.RangeLo r => parserRange stack cur not r hi chars toks
    | Token.RangeBetween => parserRange stack cur not lo hi chars toks
    | Token.RangeHi r =>
      if r < lo then none else parserRange stack cur not lo r chars toks
    | Token.Text raw => parserRange stack cur not lo hi raw toks
    | Token.RangeClose =>
      let isRange := lo != Char.ofNat 0 && hi != Char.ofNat 0
      let isChars := !chars.isEmpty
      if isChars == isRange then none
      else if isRange then parserMain stack (cur ++ [Node.Range lo hi not]) toks
      else parserMain stack (cur ++ [Node.List chars not]) toks
    | _ => parserRange stack cur not lo hi chars toks
end

/-- The library's `syntax.Parse`: lexer, then parser. -/
def Parse (pattern : GoString) : Option (List Node) :=
  (lexer pattern).bind (parserMain [] [])

/-- Go's `strings.HasPrefix`. -/
def strings_HasPrefix (s pre : GoString) : Bool := pre.isPrefixOf s

/-- Go's `strings.HasSuffix`. -/
def strings_HasSuffix (s suf : GoString) : Bool := suf.isSuffixOf s

/-- The nodes that `optimizeMatcher` compiles to a `match.Text`: a text, a
list of one rune that is not negated, a brace group of one alternative that
is such a node. -/
def asText : Node → Option GoString
  | Node.Text t => some t
  | Node.List [r] false => some [r]
  | Node.AnyOf [[n]] => asText n
  | _ => none

/-- The shape of pattern that the compiler's `optimizeMatcher` turns into a
`match.PrefixSuffix`: a text, `**`, a text. -/
def asPrefixSuffix : List Node → Option (GoString × GoString)
  | [a, Node.Super, b] =>
    match asText a, asText b with
    | some p, some q => some (p, q)
    | _, _ => none
  | _ => none

/-- Whether the rune range `lo`..`hi` holds `r`. -/
def inRange (lo hi r : Char) : Bool := decide (lo ≤ r) && decide (r ≤ hi)

mutual
/-- What one node leaves of `s` after matching a beginning of it, in every
possible way: `*` takes runes other than the separator, `**` takes any runes,
`?` takes one rune other than the separator, a list or a range takes one rune
(any rune outside it when negated), a brace group takes what one of its
alternatives matches. -/
def matchNode (sep : Char) : Node → GoString → List GoString
  | Node.Text t, s => if t.isPrefixOf s then [s.drop t.length] else []
  | Node.Any, s => (s.takeWhile (fun r => r != sep)).inits.map (fun p => s.drop p.length)
  | Node.Super, s => s.tails
  | Node.Single, s =>
    match s with
    | r :: rest => if r != sep then [rest] else []
    | [] => []
  | Node.List chars not, s =>
    match s with
    | r :: rest => if (chars.contains r) != not then [rest] else []
    | [] => []
  | Node.Range lo hi not, s =>
    match s with
    | r :: rest => if (inRange lo hi r) != not then [rest] else []
    | [] => []
  | Node.AnyOf alts, s =>
    (List.range (s.length + 1)).filterMap
      (fun n => if matchAlts sep alts (s.take n) then some (s.drop n) else none)
/-- What a sequence of nodes leaves of `s`, in every possible way. -/
def matchSeq (sep : Char) : List Node → GoString → List GoString
  | [], s => [s]
  | n :: ns, s => (matchNode sep n s).flatMap (fun rest => matchSeq sep ns rest)
/-- Whether one of the alternative patterns matches the whole of `s`.  Each
alternative is compiled like a pattern of its own: text, `**`, text becomes a
`match.PrefixSuffix`, whose `Match` is
`strings.HasPrefix(s, Prefix) && strings.HasSuffix(s, Suffix)`. -/
def matchAlts (sep : Char) : List (List Node) → GoString → Bool
  | [], _ => false
  | a :: as, s =>
    (match asPrefixSuffix a with
      | some (p, q) => strings_HasPrefix s p && strings_HasSuffix s q
      | none => (matchSeq sep a s).any (fun rest => rest.isEmpty)) ||
    matchAlts sep as s
end

/-- A compiled glob (`glob.Glob`): the parsed pattern and the separator. -/
structure Glob where
  nodes : List Node
  sep : Char

/-- The library's `glob.Compile(pattern, separators...)` for one separator;
`none` is the error result.

The compiler arranges the nodes in a tree of matchers (`match.BTree`) that
splits the input in every way the nodes allow, so that a pattern matches the
inputs that its nodes match one after the other, as the grammar of the
library's README says.  One rewriting of `optimizeMatcher` departs from that:
a pattern that is a text, `**` and a text is compiled to `match.PrefixSuffix`,
which tests the beginning and the end of the input separately
(`asPrefixSuffix`, `Glob.Match`), so that the two texts may share runes of
the input: `/vol1/**/thumbs.db` matches `/vol1/thumbs.db`, which the grammar
of the README alone does not provide for.  This is the one place where the
model follows the library's implementation and not its documented grammar. -/
def glob_Compile (pattern : GoString) (sep : Char) : Option Glob :=
  (Parse pattern).map (fun nodes => { nodes := nodes, sep := sep })

/-- The library's `glob.MustCompile`: it panics where `glob.Compile` returns
an error; `none` stands for the panic. -/
def glob_MustCompile (pattern : GoString) (sep : Char) : Option Glob :=
  glob_Compile pattern sep

/-- The compiled glob's `Match`. -/
def Glob.Match (g : Glob) (s : GoString) : Bool :=
  match asPrefixSuffix g.nodes with
  | some (p, q) => strings_HasPrefix s p && strings_HasSuffix s q
  | none => (matchSeq g.sep g.nodes s).any (fun rest => rest.isEmpty)

/-! ## `path/filepath` (Windows) -/

/-- Go's `os.IsPathSeparator` on Windows. -/
def os_IsPathSeparator (c : Char) : Bool := c == '\\' || c == '/'

/-- Go's `filepath.Separator` on Windows. -/
def Separator : Char := '\\'

/-- Go's `filepath.ToSlash`: every separator becomes a slash. -/
def filepath_ToSlash (path : GoString) : GoString :=
  path.map (fun c => if c == Separator then '/' else c)

/-- Go's `filepath.FromSlash`: every slash becomes a separator. -/
def filepath_FromSlash (path : GoString) : GoString :=
  path.map (fun c => if c == '/' then Separator else c)

/-- Go's `volumeNameLen` for a drive letter (`C:`).  The volume names of UNC
and device paths are not modelled: such a path counts as one without a volume
name. -/
def volumeNameLen (path : GoString) : Nat :=
  match path with
  | c :: ':' :: _ => if c.isAlpha then 2 else 0
  | _ => 0

/-- Go's `filepath.VolumeName`. -/
def filepath_VolumeName (path : GoString) : GoString :=
  filepath_FromSlash (path.take (volumeNameLen path))

/-- The elements of a path: what stands between its separators. -/
def splitElements (path : GoString) : List GoString :=
  path.splitOnP os_IsPathSeparator

/-- One step of the loop of `filepath.Clean` over the elements of the path;
`out` holds the elements written so far.  An empty element and `.` are
dropped, `..` removes the element before it (or is kept at the start of a
path that is not rooted). -/
def cleanStep (rooted : Bool) (out : List GoString) (elem : GoString) : List GoString :=
  if elem.isEmpty || elem == ['.'] then out
  else if elem == ['.', '.'] then
    match out.getLast? with
    | none => if rooted then out else [elem]
    | some last => if last == ['.', '.'] then out ++ [elem] else out.dropLast
  else out ++ [elem]

/-- Go's `filepath.Clean` on Windows. -/
def filepath_Clean (path : GoString) : GoString :=
  let vol := filepath_FromSlash (path.take (volumeNameLen path))
  let rest := path.drop (volumeNameLen path)
  match rest with
  | [] => path ++ ['.']
  | c :: _ =>
    let rooted := os_IsPathSeparator c
    let out := (splitElements rest).foldl (cleanStep rooted) []
    let body := [Separator].intercalate out
    if rooted then vol ++ Separator :: body
    else if out.isEmpty then vol ++ ['.']
    else vol ++ body

/-- Go's `filepath.Dir` on Windows. -/
def filepath_Dir (path : GoString) : GoString :=
  let vol := filepath_VolumeName path
  let rest := path.drop (volumeNameLen path)
  let upToSeparator := (rest.reverse.dropWhile (fun c => !os_IsPathSeparator c)).reverse
  vol ++ filepath_Clean upToSeparator

/-- Go's `sameWord` on Windows, `strings.EqualFold`.  The model folds the
ASCII letters only: two words that differ in the case of a letter outside
ASCII (`José` and `JOSÉ`) are the same word for Go and different words
here. -/
def sameWord (a b : GoString) : Bool := strings_ToLower a == strings_ToLower b

/-- The loop of `filepath.Rel` that skips the leading elements `base` and
`targ` share.  It returns what is left of `base` and of `targ` and the element
of `base` at which the two differed (empty when one of them ran out). -/
def relSkipCommon : Nat → GoString → GoString → GoString × GoString × GoString
  | 0, base, targ => (base, targ, [])
  | fuel + 1, base, targ =>
    if base.isEmpty || targ.isEmpty then (base, targ, [])
    else
      let baseElem := base.takeWhile (fun c => c != Separator)
      let targElem := targ.takeWhile (fun c => c != Separator)
      if !sameWord targElem baseElem then (base, targ, baseElem)
      else
        relSkipCommon fuel ((base.dropWhile (fun c => c != Separator)).drop 1)
          ((targ.dropWhile (fun c => c != Separator)).drop 1)

/-- Go's `filepath.Rel` on Windows; `none` is the error result. -/
def filepath_Rel (basepath targpath : GoString) : Option GoString :=
  let baseVol := filepath_VolumeName basepath
  let targVol := filepath_VolumeName targpath
  let base := filepath_Clean basepath
  let targ := filepath_Clean targpath
  if sameWord targ base then some ['.']
  else
    let base := base.drop baseVol.length
    let targ := targ.drop targVol.length
    let base := if base == ['.'] then [] else base
    let baseSlashed := base.head? == some Separator
    let targSlashed := targ.head? == some Separator
    if baseSlashed != targSlashed || !sameWord baseVol targVol then none
    else
      match relSkipCommon (base.length + 1) base targ with
      | (baseLeft, targLeft, baseElem) =>
        if baseElem == ['.', '.'] then none
        else if !baseLeft.isEmpty then
          let seps := baseLeft.count Separator
          let up := ['.', '.'] ++ (List.replicate seps (Separator :: ['.', '.'])).flatten
          some (if targLeft.isEmpty then up else up ++ Separator :: targLeft)
        else some targLeft

/-- Go's `filepath.Join` of a directory and the name of one of its entries,
as `filepath.WalkDir` calls it. -/
def filepath_Join (dir name : GoString) : GoString :=
  filepath_Clean (dir ++ Separator :: name)

/-! ## The tree walker: `getAllDirsAndFiles` -/

/-- The errors the walk can meet, by what `errors.Is` says of them:
`syscall.Errno(windows.ERROR_NOT_READY)`, an error that is
`fs.ErrPermission`, and any other error. -/
inductive WalkError where
  | notReady
  | permission
  | other (text : GoString)
  deriving DecidableEq, Repr

/-- The entries `os.ReadDir` returns for a directory, in its order.  A
directory entry holds the entries of its own `os.ReadDir` and the error that
call returned, if any. -/
inductive Entries where
  | nil
  | file (name : GoString) (rest : Entries)
  | dir (name : GoString) (children : Entries) (readErr : Option WalkError) (rest : Entries)
  deriving Repr

/-- What `os.Lstat` and `os.ReadDir` show of a root: the error of `os.Lstat`,
a root that is not a directory, or a directory with its entries. -/
inductive RootInfo where
  | lstatError (err : WalkError)
  | file
  | dir (children : Entries) (readErr : Option WalkError)
  deriving Repr

/-- The slices `dirs` and `files` the walk callback appends to. -/
structure Walked where
  dirs : List GoString
  files : List GoString
  deriving DecidableEq, Repr

/-- The callback `getAllDirsAndFiles` passes to `filepath.WalkDir`
(lines 245-261); `Except.error` is a returned error, `Except.ok` is `nil`. -/
def walkCallback (acc : Walked) (path : GoString) (isDir : Bool) (err : Option WalkError) :
    Except WalkError Walked :=
  match err with
  | some e =>
    if e = WalkError.notReady then Except.ok acc
    else if e = WalkError.permission then Except.ok acc
    else Except.error e
  | none =>
    if isDir then Except.ok { acc with dirs := acc.dirs ++ [filepath_ToSlash path ++ ['/']] }
    else Except.ok { acc with files := acc.files ++ [filepath_ToSlash path] }

/-- The second call `walkDir` makes for a directory, made only when its
`os.ReadDir` returned an error. -/
def reportReadErr (acc : Walked) (path : GoString) (readErr : Option WalkError) :
    Except WalkError Walked :=
  match readErr with
  | some e => walkCallback acc path true (some e)
  | none => Except.ok acc

/-- Go's `walkDir` over the entries of the directory `dir`: every entry is
given to the callback; a directory is then read, a read error is given to the
callback too, and the entries that were read are walked.  The first error the
callback returns ends the walk. -/
def walkEntries (dir : GoString) : Entries → Walked → Except WalkError Walked
  | Entries.nil, acc => Except.ok acc
  | Entries.file name rest, acc =>
    match walkCallback acc (filepath_Join dir name) false none with
    | Except.error e => Except.error e
    | Except.ok acc1 => walkEntries dir rest acc1
  | Entries.dir name children readErr rest, acc =>
    match walkCallback acc (filepath_Join dir name) true none with
    | Except.error e => Except.error e
    | Except.ok acc1 =>
      match reportReadErr acc1 (filepath_Join dir name) readErr with
      | Except.error e => Except.error e
      | Except.ok acc2 =>
        match walkEntries (filepath_Join dir name) children acc2 with
        | Except.error e => Except.error e
        | Except.ok acc3 => walkEntries dir rest acc3

/-- Go's `filepath.WalkDir(root, fn)` with the callback of
`getAllDirsAndFiles`. -/
def filepath_WalkDir (root : GoString) (info : RootInfo) : Except WalkError Walked :=
  match info with
  | RootInfo.lstatError e => walkCallback { dirs := [], files := [] } root false (some e)
  | RootInfo.file => walkCallback { dirs := [], files := [] } root false none
  | RootInfo.dir children readErr =>
    match walkCallback { dirs := [], files := [] } root true none with
    | Except.error e => Except.error e
    | Except.ok acc1 =>
      match reportReadErr acc1 root readErr with
      | Except.error e => Except.error e
      | Except.ok acc2 => walkEntries root children acc2

/-- The file system as the walk sees it: what is found at a path. -/
abbrev FileSystem := GoString → RootInfo

/-- The function `getAllDirsAndFiles` (lines 240-267): the walked directories
(with a trailing slash) and files, or the error of the walk. -/
def getAllDirsAndFiles (fs : FileSystem) (rootDir : GoString) : Except WalkError Walked :=
  filepath_WalkDir (filepath_Clean rootDir) (fs (filepath_Clean rootDir))

/-! ## `main`: the classification loop -/

/-- The pattern catalog `patterns` (lines 161-202). -/
def patterns : List GoString :=
  [ "$RECYCLE.BIN/".toList,
    "Config.Msi/".toList,
    "FOUND.[0-9][0-9][0-9]/".toList,
    "System Volume Information/".toList,
    "DumpStack.log*".toList,
    "**/*.ink".toList,
    "**/*.stackdump".toList,
    "**/Desktop.ini".toList,
    "**/Thumbs.db".toList,
    "**/Thumbs.db:encryptable".toList,
    "**/ehthumbs.db".toList,
    "**/ehthumbs_vista.db".toList,
    ".DocumentRevisions-V100/".toList,
    ".Spotlight-V100/".toList,
    ".TemporaryItems/".toList,
    ".Trashes/".toList,
    ".VolumeIcon.icns/".toList,
    ".com.apple.timemachine.donotpresent/".toList,
    ".fseventsd/".toList,
    "**/.AppleDB/".toList,
    "**/.AppleDesktop/".toList,
    "**/.AppleDouble/".toList,
    "**/.DS_Store/".toList,
    "**/.LSOverride/".toList,
    "**/.apdisk/".toList,
    "**/__MACOSX/".toList,
    "**/*.icloud".toList,
    "**/._*".toList,
    "**/.Trash-*/".toList,
    "**/*~".toList,
    "**/.fuse_hidden*".toList,
    "**/.nfs*".toList,
    "@Recently-Snapshot/".toList,
    "@Recycle/".toList,
    "**/*.tmp".toList,
    "**/~$*".toList ]

/-- The test `pattern[len(pattern)-1:] == "/"` (line 314). -/
def endsWithSlash (pattern : GoString) : Bool := pattern.getLast? == some '/'

/-- The matcher `main` compiles for a pattern under a root (line 306):
`glob.MustCompile(strings.ToLower(rootDir+pattern), '/')`. -/
def compileFor (rootDir pattern : GoString) : Option Glob :=
  glob_MustCompile (strings_ToLower (rootDir ++ pattern)) '/'

/-- The map `matcherMap` (lines 305-307), as the list of its key-value pairs;
the keys are the patterns of the catalog, which are pairwise different.
`none` stands for the panic of `glob.MustCompile`. -/
def matcherMapOf (rootDir : GoString) : List GoString → Option (List (GoString × Glob))
  | [] => some []
  | pattern :: rest =>
    match compileFor rootDir pattern with
    | none => none
    | some matcher => (matcherMapOf rootDir rest).map (fun mm => (pattern, matcher) :: mm)

/-- The map `matcherMap` of a root. -/
def matcherMap (rootDir : GoString) : Option (List (GoString × Glob)) :=
  matcherMapOf rootDir patterns

/-- The test `inUserDir` (lines 324-328): some user directory has the
directory of `file` at the relative path `.`. -/
def inUserDir (userDirs : List GoString) (file : GoString) : Bool :=
  userDirs.any (fun userDir =>
    filepath_ToSlash ((filepath_Rel userDir (filepath_Dir file)).getD []) == ['.'])

/-- The matches `main` collects: the slices `matchedDirs` and `matchedFiles`. -/
structure Matched where
  matchedDirs : List GoString
  matchedFiles : List GoString
  deriving DecidableEq, Repr

/-- The loop over `dirs` of lines 315-319. -/
def matchDirs (matcher : Glob) (dirs : List GoString) : List GoString :=
  dirs.filter (fun dir => matcher.Match (strings_ToLower dir))

/-- The loop over `files` of lines 321-335. -/
def matchFiles (userDirs : List GoString) (pattern : GoString) (matcher : Glob)
    (files : List GoString) : List GoString :=
  files.filter (fun file =>
    matcher.Match (strings_ToLower file) &&
      !(pattern == "**/Desktop.ini".toList && inUserDir userDirs file))

/-- One round of the loop over `matcherMap` (lines 313-337), for the key
`pattern` and its value `matcher`. -/
def classifyPattern (userDirs : List GoString) (walked : Walked) (acc : Matched)
    (pattern : GoString) (matcher : Glob) : Matched :=
  if endsWithSlash pattern then
    { acc with matchedDirs := acc.matchedDirs ++ matchDirs matcher walked.dirs }
  else
    { acc with matchedFiles := acc.matchedFiles ++ matchFiles userDirs pattern matcher walked.files }

/-- The loop `for pattern, matcher := range matcherMap` (lines 313-337).  Go
leaves the order in which a map is ranged over open; `order` lists the keys
in the order of this run. -/
def classify (userDirs : List GoString) (mm : List (GoString × Glob)) (walked : Walked)
    (order : List GoString) (acc : Matched) : Matched :=
  order.foldl
    (fun acc pattern =>
      match mm.lookup pattern with
      | some matcher => classifyPattern userDirs walked acc pattern matcher
      | none => acc)
    acc

/-- The body of the loop over `rootDirs` for a root whose walk returned
`walked` (lines 305-337); `none` stands for the panic of `glob.MustCompile`. -/
def classifyRoot (userDirs : List GoString) (rootDir : GoString) (walked : Walked)
    (order : List GoString) (acc : Matched) : Option Matched :=
  (matcherMap rootDir).map (fun mm => classify userDirs mm walked order acc)

/-- A root of one run: the root directory and the order in which this run
ranges over the root's `matcherMap`. -/
structure RootRun where
  rootDir : GoString
  order : List GoString

/-- The loop over `rootDirs` (lines 304-338).  `none` stands for the panic of
`glob.MustCompile`; a root whose walk returns an error is printed and
skipped. -/
def classifyRoots (fs : FileSystem) (userDirs : List GoString) :
    List RootRun → Matched → Option Matched
  | [], acc => some acc
  | run :: runs, acc =>
    match matcherMap run.rootDir with
    | none => none
    | some mm =>
      match getAllDirsAndFiles fs run.rootDir with
      | Except.error _ => classifyRoots fs userDirs runs acc
      | Except.ok walked =>
        classifyRoots fs userDirs runs (classify userDirs mm walked run.order acc)

/-- The root `main` takes from its argument (lines 290-300).  Both tests of
the trailing separator hold for every string, so a slash is appended twice,
before and after the cleaning.  `none` stands for the panic of `p[len(p)-1:]`
on an empty argument. -/
def overrideRoot (arg : GoString) : Option GoString :=
  if arg.isEmpty then none
  else some (filepath_ToSlash (filepath_Clean (arg ++ ['/'])) ++ ['/'])

/-! ## `main`: the confirmation and the removals -/

/-- One call of `os.Remove` or `os.RemoveAll` made by `main`. -/
structure Attempt where
  recursive : Bool
  path : GoString
  failed : Bool
  deriving DecidableEq, Repr

/-- The calls `os.Remove` and `os.RemoveAll` over a state `σ` of the disk:
each returns whether it failed and the state it leaves. -/
structure Os (σ : Type) where
  Remove : σ → GoString → Bool × σ
  RemoveAll : σ → GoString → Bool × σ

/-- The loop of lines 356-362 over `matchedFiles`. -/
def removeFiles {σ : Type} (os : Os σ) : List GoString → σ → List Attempt × σ
  | [], disk => ([], disk)
  | file :: files, disk =>
    let r := os.Remove disk file
    let rs := removeFiles os files r.2
    ({ recursive := false, path := file, failed := r.1 } :: rs.1, rs.2)

/-- The loop of lines 363-369 over `matchedDirs`. -/
def removeDirs {σ : Type} (os : Os σ) : List GoString → σ → List Attempt × σ
  | [], disk => ([], disk)
  | dir :: dirs, disk =>
    let r := os.RemoveAll disk dir
    let rs := removeDirs os dirs r.2
    ({ recursive := true, path := dir, failed := r.1 } :: rs.1, rs.2)

/-- The end of `main` (lines 349-369): `input` is the token `fmt.Scanln`
stored.  The result lists the removal calls in the order they were made, and
the disk they leave. -/
def confirmAndRemove {σ : Type} (os : Os σ) (input : GoString) (matched : Matched)
    (disk : σ) : List Attempt × σ :=
  if strings_ToLower input != ['y'] then ([], disk)
  else
    let fr := removeFiles os matched.matchedFiles disk
    let dr := removeDirs os matched.matchedDirs fr.2
    (fr.1 ++ dr.1, dr.2)

/-- A disk: the paths that exist, a directory with a trailing slash as the
walker writes it. -/
abbrev Disk := List GoString

/-- Whether `path` is `target` or lies inside the directory `target`. -/
def isWithin (target path : GoString) : Bool :=
  path == target || path == target ++ ['/'] ||
    (if target.getLast? == some '/' then target else target ++ ['/']).isPrefixOf path

/-- The calls on a disk where a call fails only for want of its target:
`os.Remove` fails when the path does not exist; `os.RemoveAll` removes the
path and what it contains and returns `nil` also when the path does not
exist. -/
def diskOs : Os Disk where
  Remove := fun disk name =>
    if name ∈ disk then (false, disk.filter (fun p => p != name)) else (true, disk)
  RemoveAll := fun disk path => (false, disk.filter (fun p => !isWithin path p))

/-! ## What the statements below speak of -/

/-- Whether the lexer reads the rune as glob syntax when no range and no
brace group is open: the runes of `inTextBreakers`, which are `?`, `*`, `[`
and `{`, and the backslash that escapes the rune after it.  A `]` or a `}`
that nothing opened is text. -/
def readAsSyntax (c : Char) : Bool :=
  c == '*' || c == '?' || c == '\\' || c == '[' || c == '{'

/-- The removal calls of a confirmed run, in the order of lines 356-369:
`(false, file)` stands for `os.Remove(file)` and `(true, dir)` for
`os.RemoveAll(dir)`. -/
def removalCalls (matched : Matched) : List (Bool × GoString) :=
  matched.matchedFiles.map (fun file => (false, file)) ++
    matched.matchedDirs.map (fun dir => (true, dir))

/-- One removal call, made on the disk `disk`. -/
def callOs {σ : Type} (os : Os σ) (disk : σ) (call : Bool × GoString) : Bool × σ :=
  if call.1 then os.RemoveAll disk call.2 else os.Remove disk call.2

/-- A list of removal calls made one after the other, each on the disk the call
before left, whatever that call returned: what every call returned, and the
disk the last call leaves. -/
def runCalls {σ : Type} (os : Os σ) : List (Bool × GoString) → σ → List Attempt × σ
  | [], disk => ([], disk)
  | call :: calls, disk =>
    let r := callOs os disk call
    let rs := runCalls os calls r.2
    ({ recursive := call.1, path := call.2, failed := r.1 } :: rs.1, rs.2)

/-- The operating system `os` with a log of the calls made on it: every call
is passed on to `os` and written at the end of the log. -/
def logged {σ : Type} (os : Os σ) : Os (σ × List (Bool × GoString)) where
  Remove := fun st path =>
    ((os.Remove st.1 path).1, ((os.Remove st.1 path).2, st.2 ++ [(false, path)]))
  RemoveAll := fun st path =>
    ((os.RemoveAll st.1 path).1, ((os.RemoveAll st.1 path).2, st.2 ++ [(true, path)]))

/-- Whether the entries of a directory hold a file of this name. -/
def Entries.hasFile (name : GoString) : Entries → Bool
  | Entries.nil => false
  | Entries.file n rest => n == name || rest.hasFile name
  | Entries.dir _ _ _ rest => rest.hasFile name

/-- The errors the walk callback answers with `nil`. -/
def tolerated (e : WalkError) : Bool :=
  decide (e = WalkError.notReady) || decide (e = WalkError.permission)

/-- Whether a read error is one the callback returns. -/
def hardReadErr : Option WalkError → Bool
  | some e => !tolerated e
  | none => false

/-- Whether some entry below carries an error that is neither
permission-denied nor device-not-ready. -/
def Entries.hardError : Entries → Bool
  | Entries.nil => false
  | Entries.file _ rest => rest.hardError
  | Entries.dir _ children readErr rest =>
    hardReadErr readErr || children.hardError || rest.hardError

/-- Whether the root or some entry below it carries an error that is neither
permission-denied nor device-not-ready. -/
def RootInfo.hardError : RootInfo → Bool
  | RootInfo.lstatError e => !tolerated e
  | RootInfo.file => false
  | RootInfo.dir children readErr => hardReadErr readErr || children.hardError

/-- The directories among the entries of `dir`, at any depth, as the walker
writes them. -/
def Entries.dirPaths (dir : GoString) : Entries → List GoString
  | Entries.nil => []
  | Entries.file _ rest => rest.dirPaths dir
  | Entries.dir name children _ rest =>
    (filepath_ToSlash (filepath_Join dir name) ++ ['/']) ::
      (children.dirPaths (filepath_Join dir name) ++ rest.dirPaths dir)

/-- The files among the entries of `dir`, at any depth, as the walker writes
them. -/
def Entries.filePaths (dir : GoString) : Entries → List GoString
  | Entries.nil => []
  | Entries.file name rest => filepath_ToSlash (filepath_Join dir name) :: rest.filePaths dir
  | Entries.dir name children _ rest =>
    children.filePaths (filepath_Join dir name) ++ rest.filePaths dir

/-- Every directory at and below the root. -/
def RootInfo.dirPaths (root : GoString) : RootInfo → List GoString
  | RootInfo.lstatError _ => []
  | RootInfo.file => []
  | RootInfo.dir children _ => (filepath_ToSlash root ++ ['/']) :: children.dirPaths root

/-- Every file at and below the root. -/
def RootInfo.filePaths (root : GoString) : RootInfo → List GoString
  | RootInfo.lstatError _ => []
  | RootInfo.file => [filepath_ToSlash root]
  | RootInfo.dir children _ => children.filePaths root

/-- Whether the directory pattern `pattern` has, under `rootDir`, a matcher
that matches the lower-cased path of `dir`. -/
def dirHit (rootDir pattern dir : GoString) : Bool :=
  endsWithSlash pattern &&
    match compileFor rootDir pattern with
    | some matcher => matcher.Match (strings_ToLower dir)
    | none => false

/-- Whether the file pattern `pattern` has, under `rootDir`, a matcher that
matches the lower-cased path of `file`, the match not being dropped by the
rule on `**/Desktop.ini`. -/
def fileHit (userDirs : List GoString) (rootDir pattern file : GoString) : Bool :=
  !endsWithSlash pattern &&
    match compileFor rootDir pattern with
    | some matcher =>
      matcher.Match (strings_ToLower file) &&
        !(pattern == "**/Desktop.ini".toList && inUserDir userDirs file)
    | none => false

/-- What one root adds to the matches: nothing when its walk returns an
error. -/
def rootMatches (fs : FileSystem) (userDirs : List GoString) (run : RootRun) : Matched :=
  match getAllDirsAndFiles fs run.rootDir with
  | Except.error _ => { matchedDirs := [], matchedFiles := [] }
  | Except.ok walked =>
    (classifyRoot userDirs run.rootDir walked run.order { matchedDirs := [], matchedFiles := [] }).getD
      { matchedDirs := [], matchedFiles := [] }

/-- Whether the walk of a root returns without an error. -/
def walkSucceeds (fs : FileSystem) (run : RootRun) : Bool :=
  match getAllDirsAndFiles fs run.rootDir with
  | Except.error _ => false
  | Except.ok _ => true

/-- An example file system: every root is a directory that holds the
directory `x` with the files `a.tmp` and `b~`. -/
def exampleFs : FileSystem := fun _ =>
  RootInfo.dir
    (Entries.dir "x".toList
      (Entries.file "a.tmp".toList (Entries.file "b~".toList Entries.nil)) none Entries.nil)
    none

/-- The tokens of a pattern that is read after the text `b`: `b` joins the
text token the pattern starts with, or stands before its first token. -/
def underTok (b : GoString) : List Token → List Token
  | Token.Text t :: ts => Token.Text (b ++ t) :: ts
  | ts => Token.Text b :: ts

/-- The nodes of a pattern that is read after the text `b`. -/
def underText (b : GoString) : List Node → List Node
  | Node.Text t :: ns => Node.Text (b ++ t) :: ns
  | ns => Node.Text b :: ns

/-- Whether a token list is empty or starts with a text, `*`, `**` or `?`. -/
def plainStart : List Token → Bool
  | [] => true
  | Token.Text _ :: _ => true
  | Token.Any :: _ => true
  | Token.Super :: _ => true
  | Token.Single :: _ => true
  | _ => false

/-- The stack of open brace groups with the nodes `pre` put before the
outermost pattern. -/
def addPre (pre : List Node) : List Frame → List Frame
  | [] => []
  | [f] => [{ before := pre ++ f.before, alts := f.alts }]
  | f :: g :: stack => f :: addPre pre (g :: stack)

/-- What stands after the last slash of a path. -/
def lastSeg (s : GoString) : GoString :=
  (s.reverse.takeWhile (fun c => c != '/')).reverse

/-! ## Theorems: the tree walker -/

theorem walkCallback_tolerated (acc : Walked) (path : GoString) (isDir : Bool)
    (e : WalkError) (h : tolerated e = true) :
    walkCallback acc path isDir (some e) = Except.ok acc := by
  cases e <;> simp_all [walkCallback, tolerated]

theorem walkCallback_hard (acc : Walked) (path : GoString) (isDir : Bool)
    (e : WalkError) (h : tolerated e = false) :
    walkCallback acc path isDir (some e) = Except.error e := by
  cases e <;> simp_all [walkCallback, tolerated]

theorem reportReadErr_soft (acc : Walked) (path : GoString) (readErr : Option WalkError)
    (h : hardReadErr readErr = false) : reportReadErr acc path readErr = Except.ok acc := by
  cases readErr with
  | none => rfl
  | some e =>
    simp only [hardReadErr, Bool.not_eq_false'] at h
    simp [reportReadErr, walkCallback_tolerated _ _ _ _ h]

theorem reportReadErr_hard (acc : Walked) (path : GoString) (readErr : Option WalkError)
    (h : hardReadErr readErr = true) : ∃ e, reportReadErr acc path readErr = Except.error e := by
  cases readErr with
  | none => simp [hardReadErr] at h
  | some e =>
    simp only [hardReadErr, Bool.not_eq_true'] at h
    exact ⟨e, by simp [reportReadErr, walkCallback_hard _ _ _ _ h]⟩

theorem walkEntries_soft (es : Entries) :
    ∀ (dir : GoString) (acc : Walked), es.hardError = false →
      walkEntries dir es acc =
        Except.ok { dirs := acc.dirs ++ es.dirPaths dir, files := acc.files ++ es.filePaths dir } := by
  induction es with
  | nil => intro dir acc _; simp [walkEntries, Entries.dirPaths, Entries.filePaths]
  | file name rest ih =>
    intro dir acc h
    simp only [Entries.hardError] at h
    simp [walkEntries, walkCallback, ih _ _ h, Entries.dirPaths, Entries.filePaths]
  | dir name children readErr rest ihc ihr =>
    intro dir acc h
    simp only [Entries.hardError, Bool.or_eq_false_iff] at h
    obtain ⟨⟨h1, h2⟩, h3⟩ := h
    simp [walkEntries, walkCallback, reportReadErr_soft _ _ _ h1, ihc _ _ h2, ihr _ _ h3,
      Entries.dirPaths, Entries.filePaths]

theorem walkEntries_hard (es : Entries) :
    ∀ (dir : GoString) (acc : Walked), es.hardError = true →
      ∃ e, walkEntries dir es acc = Except.error e := by
  induction es with
  | nil => intro dir acc h; simp [Entries.hardError] at h
  | file name rest ih =>
    intro dir acc h
    simp only [Entries.hardError] at h
    obtain ⟨e, he⟩ := ih dir { acc with files := acc.files ++ [filepath_ToSlash (filepath_Join dir name)] } h
    exact ⟨e, by simp [walkEntries, walkCallback, he]⟩
  | dir name children readErr rest ihc ihr =>
    intro dir acc h
    simp only [walkEntries, walkCallback]
    cases h1 : hardReadErr readErr with
    | true =>
      obtain ⟨e, he⟩ := reportReadErr_hard
        { acc with dirs := acc.dirs ++ [filepath_ToSlash (filepath_Join dir name) ++ ['/']] }
        (filepath_Join dir name) readErr h1
      exact ⟨e, by simp [he]⟩
    | false =>
      simp only [reportReadErr_soft _ _ _ h1]
      cases h2 : children.hardError with
      | true =>
        obtain ⟨e, he⟩ := ihc (filepath_Join dir name)
          { acc with dirs := acc.dirs ++ [filepath_ToSlash (filepath_Join dir name) ++ ['/']] } h2
        exact ⟨e, by simp [he]⟩
      | false =>
        have h3 : rest.hardError = true := by
          simpa [Entries.hardError, h1, h2] using h
        simp only [walkEntries_soft children _ _ h2]
        exact ihr dir _ h3

theorem filepath_WalkDir_soft (root : GoString) (info : RootInfo) (h : info.hardError = false) :
    filepath_WalkDir root info =
      Except.ok { dirs := info.dirPaths root, files := info.filePaths root } := by
  cases info with
  | lstatError e =>
    simp only [RootInfo.hardError, Bool.not_eq_false'] at h
    simp [filepath_WalkDir, walkCallback_tolerated _ _ _ _ h, RootInfo.dirPaths,
      RootInfo.filePaths]
  | file => simp [filepath_WalkDir, walkCallback, RootInfo.dirPaths, RootInfo.filePaths]
  | dir children readErr =>
    simp only [RootInfo.hardError, Bool.or_eq_false_iff] at h
    simp [filepath_WalkDir, walkCallback, reportReadErr_soft _ _ _ h.1,
      walkEntries_soft children _ _ h.2, RootInfo.dirPaths, RootInfo.filePaths]

theorem filepath_WalkDir_hard (root : GoString) (info : RootInfo) (h : info.hardError = true) :
    ∃ e, filepath_WalkDir root info = Except.error e := by
  cases info with
  | lstatError e =>
    simp only [RootInfo.hardError, Bool.not_eq_true'] at h
    exact ⟨e, by simp [filepath_WalkDir, walkCallback_hard _ _ _ _ h]⟩
  | file => simp [RootInfo.hardError] at h
  | dir children readErr =>
    simp only [filepath_WalkDir, walkCallback]
    cases h1 : hardReadErr readErr with
    | true =>
      obtain ⟨e, he⟩ := reportReadErr_hard
        { dirs := [filepath_ToSlash root ++ ['/']], files := [] } root readErr h1
      exact ⟨e, by simp [he]⟩
    | false =>
      have h2 : children.hardError = true := by simpa [RootInfo.hardError, h1] using h
      simp only [reportReadErr_soft _ _ _ h1]
      exact walkEntries_hard children root _ h2

/-- C7: the walk callback returns `nil` for a permission-denied and for a
device-not-ready error and returns every other error; `getAllDirsAndFiles`
returns an error (and no entries) exactly when the root or an entry carries
an error of neither kind, and otherwise it returns every directory and every
file of the tree, those next to an unreadable subtree included. -/
theorem getAllDirsAndFiles_tolerates_permission_and_not_ready
    (fs : FileSystem) (rootDir : GoString) :
    (∀ (acc : Walked) (path : GoString) (isDir : Bool),
      walkCallback acc path isDir (some WalkError.permission) = Except.ok acc ∧
      walkCallback acc path isDir (some WalkError.notReady) = Except.ok acc ∧
      ∀ text, walkCallback acc path isDir (some (WalkError.other text)) =
        Except.error (WalkError.other text)) ∧
    ((∃ e, getAllDirsAndFiles fs rootDir = Except.error e) ↔
      (fs (filepath_Clean rootDir)).hardError = true) ∧
    (getAllDirsAndFiles fs rootDir).toOption =
      if (fs (filepath_Clean rootDir)).hardError then none
      else some { dirs := (fs (filepath_Clean rootDir)).dirPaths (filepath_Clean rootDir),
                  files := (fs (filepath_Clean rootDir)).filePaths (filepath_Clean rootDir) } := by
  refine ⟨fun acc path isDir => ⟨rfl, rfl, fun text => rfl⟩, ?_, ?_⟩
  · cases h : (fs (filepath_Clean rootDir)).hardError with
    | true => simpa [getAllDirsAndFiles] using filepath_WalkDir_hard _ _ h
    | false => simp [getAllDirsAndFiles, filepath_WalkDir_soft _ _ h]
  · cases h : (fs (filepath_Clean rootDir)).hardError with
    | true =>
      obtain ⟨e, he⟩ := filepath_WalkDir_hard (filepath_Clean rootDir) _ h
      simp [getAllDirsAndFiles, he, Except.toOption]
    | false => simp [getAllDirsAndFiles, filepath_WalkDir_soft _ _ h, Except.toOption]

/-! ## Theorems: the confirmation and the removals -/

theorem toLower_eq_y (c : Char) : c.toLower = 'y' ↔ c = 'y' ∨ c = 'Y' := by
  constructor
  · intro h
    by_cases hc : 65 ≤ c.toNat ∧ c.toNat ≤ 90
    · right
      have hofNat : c = Char.ofNat c.toNat := (Char.ofNat_toNat c).symm
      obtain ⟨h1, h2⟩ := hc
      generalize c.toNat = n at hofNat h1 h2
      subst hofNat
      interval_cases n <;> first | rfl | (exact absurd h (by decide))
    · left
      have : c.toLower = c := by
        unfold Char.toLower
        simp only [ge_iff_le]
        rw [if_neg hc]
      rw [this] at h
      exact h
  · rintro (h | h) <;> subst h <;> rfl

theorem strings_ToLower_eq_y (input : GoString) :
    strings_ToLower input = ['y'] ↔ input = ['y'] ∨ input = ['Y'] := by
  unfold strings_ToLower
  match input with
  | [] => simp
  | [c] => simp [toLower_eq_y]
  | _ :: _ :: _ => simp

theorem runCalls_append {σ : Type} (os : Os σ) (xs ys : List (Bool × GoString)) :
    ∀ disk : σ, runCalls os (xs ++ ys) disk =
      ((runCalls os xs disk).1 ++ (runCalls os ys (runCalls os xs disk).2).1,
        (runCalls os ys (runCalls os xs disk).2).2) := by
  induction xs with
  | nil => intro disk; rfl
  | cons x xs ih => intro disk; simp [runCalls, ih]

theorem removeFiles_eq_runCalls {σ : Type} (os : Os σ) (files : List GoString) :
    ∀ disk : σ, removeFiles os files disk =
      runCalls os (files.map (fun file => (false, file))) disk := by
  induction files with
  | nil => intro disk; rfl
  | cons file files ih => intro disk; simp [removeFiles, runCalls, callOs, ih]

theorem removeDirs_eq_runCalls {σ : Type} (os : Os σ) (dirs : List GoString) :
    ∀ disk : σ, removeDirs os dirs disk =
      runCalls os (dirs.map (fun dir => (true, dir))) disk := by
  induction dirs with
  | nil => intro disk; rfl
  | cons dir dirs ih => intro disk; simp [removeDirs, runCalls, callOs, ih]

theorem confirmAndRemove_of_yes {σ : Type} (os : Os σ) (input : GoString)
    (matched : Matched) (disk : σ) (h : strings_ToLower input = ['y']) :
    confirmAndRemove os input matched disk = runCalls os (removalCalls matched) disk := by
  simp [confirmAndRemove, h, removalCalls, runCalls_append, removeFiles_eq_runCalls,
    removeDirs_eq_runCalls]

theorem confirmAndRemove_of_other {σ : Type} (os : Os σ) (input : GoString)
    (matched : Matched) (disk : σ) (h : ¬ strings_ToLower input = ['y']) :
    confirmAndRemove os input matched disk = ([], disk) := by
  simp [confirmAndRemove, h]

theorem callOs_logged {σ : Type} (os : Os σ) (disk : σ) (log : List (Bool × GoString))
    (call : Bool × GoString) :
    callOs (logged os) (disk, log) call =
      ((callOs os disk call).1, ((callOs os disk call).2, log ++ [call])) := by
  obtain ⟨recursive, path⟩ := call
  cases recursive <;> rfl

theorem runCalls_logged {σ : Type} (os : Os σ) (calls : List (Bool × GoString)) :
    ∀ (disk : σ) (log : List (Bool × GoString)),
      runCalls (logged os) calls (disk, log) =
        ((runCalls os calls disk).1, ((runCalls os calls disk).2, log ++ calls)) := by
  induction calls with
  | nil => intro disk log; simp [runCalls]
  | cons call calls ih =>
    intro disk log
    simp only [runCalls, callOs_logged, ih, List.append_assoc, List.singleton_append]

theorem runCalls_length {σ : Type} (os : Os σ) (calls : List (Bool × GoString)) :
    ∀ disk : σ, (runCalls os calls disk).1.length = calls.length := by
  induction calls with
  | nil => intro disk; rfl
  | cons call calls ih => intro disk; simp [runCalls, ih]

/-- C4: the removals are made exactly when the token read at the prompt is
`y` or `Y` (the tokens whose lower case is `y`).  For such a token the run is
the run of the removal calls, `os.Remove` on every matched file and then
`os.RemoveAll` on every matched directory, each made on the disk the call
before left; for every other token the result holds no call and the disk is
the one `main` started with.  On an operating system that logs the calls made
on it the log is, accordingly, the list of these calls for `y` and `Y` and
empty for every other token, whatever was matched. -/
theorem confirmAndRemove_only_on_y {σ : Type} (os : Os σ) (input : GoString)
    (matched : Matched) (disk : σ) :
    (strings_ToLower input = ['y'] ↔ input = ['y'] ∨ input = ['Y']) ∧
    confirmAndRemove os input matched disk =
      (if input = ['y'] ∨ input = ['Y'] then runCalls os (removalCalls matched) disk
      else ([], disk)) ∧
    (confirmAndRemove (logged os) input matched (disk, [])).2.2 =
      (if input = ['y'] ∨ input = ['Y'] then removalCalls matched else []) := by
  refine ⟨strings_ToLower_eq_y input, ?_, ?_⟩
  · by_cases h : input = ['y'] ∨ input = ['Y']
    · rw [if_pos h]
      exact confirmAndRemove_of_yes os input matched disk ((strings_ToLower_eq_y input).2 h)
    · rw [if_neg h]
      exact confirmAndRemove_of_other os input matched disk
        (fun hl => h ((strings_ToLower_eq_y input).1 hl))
  · by_cases h : input = ['y'] ∨ input = ['Y']
    · rw [if_pos h, confirmAndRemove_of_yes (logged os) input matched (disk, [])
        ((strings_ToLower_eq_y input).2 h), runCalls_logged]
      rfl
    · rw [if_neg h, confirmAndRemove_of_other (logged os) input matched (disk, [])
        (fun hl => h ((strings_ToLower_eq_y input).1 hl))]

theorem diskOs_Remove (disk : Disk) (name : GoString) :
    diskOs.Remove disk name =
      if name ∈ disk then (false, disk.filter (fun p => p != name)) else (true, disk) := rfl

theorem diskOs_RemoveAll (disk : Disk) (path : GoString) :
    diskOs.RemoveAll disk path = (false, disk.filter (fun p => !isWithin path p)) := rfl

theorem removeFiles_disk_failed (files : List GoString) :
    ∀ disk : Disk, files.Nodup →
      ((removeFiles diskOs files disk).1.filter (fun a => a.failed)).map (fun a => a.path) =
        files.filter (fun file => decide (file ∉ disk)) := by
  induction files with
  | nil => intro disk _; rfl
  | cons file files ih =>
    intro disk hnd
    obtain ⟨hnotin, hnd'⟩ := List.nodup_cons.1 hnd
    by_cases hc : file ∈ disk
    · have h2 : files.filter (fun g => decide (g ∉ disk.filter (fun p => p != file))) =
          files.filter (fun g => decide (g ∉ disk)) := by
        apply List.filter_congr
        intro g hg
        have hne : g ≠ file := fun h => hnotin (h ▸ hg)
        simp [List.mem_filter, hne]
      simp only [removeFiles, diskOs_Remove, if_pos hc]
      rw [List.filter_cons_of_neg (by simp), ih _ hnd', h2,
        List.filter_cons_of_neg (by simpa using hc)]
    · simp only [removeFiles, diskOs_Remove, if_neg hc]
      rw [List.filter_cons_of_pos (by simp), List.map_cons, ih _ hnd',
        List.filter_cons_of_pos (by simpa using hc)]

theorem removeFiles_recursive {σ : Type} (os : Os σ) (files : List GoString) :
    ∀ disk : σ, ∀ a ∈ (removeFiles os files disk).1, a.recursive = false := by
  induction files with
  | nil => intro disk a ha; simp [removeFiles] at ha
  | cons file files ih =>
    intro disk a ha
    simp only [removeFiles, List.mem_cons] at ha
    rcases ha with ha | ha
    · rw [ha]
    · exact ih _ a ha

theorem removeDirs_disk_failed (dirs : List GoString) :
    ∀ disk : Disk, (removeDirs diskOs dirs disk).1.filter (fun a => a.failed) = [] := by
  induction dirs with
  | nil => intro disk; rfl
  | cons dir dirs ih =>
    intro disk
    simp only [removeDirs, diskOs_RemoveAll]
    rw [List.filter_cons_of_neg (by simp)]
    exact ih _

theorem removeFiles_disk_left (files : List GoString) :
    ∀ disk : Disk, (removeFiles diskOs files disk).2 =
      disk.filter (fun p => decide (p ∉ files)) := by
  induction files with
  | nil => intro disk; simp [removeFiles]
  | cons file files ih =>
    intro disk
    have hstep : (diskOs.Remove disk file).2 = disk.filter (fun p => p != file) := by
      rw [diskOs_Remove]
      by_cases hc : file ∈ disk
      · rw [if_pos hc]
      · rw [if_neg hc]
        symm
        apply List.filter_eq_self.2
        intro p hp
        have : p ≠ file := fun h => hc (h ▸ hp)
        simpa using this
    simp only [removeFiles]
    rw [hstep, ih, List.filter_filter]
    apply List.filter_congr
    intro p _
    by_cases h1 : p = file <;> by_cases h2 : p ∈ files <;> simp [h1, h2]

theorem removeDirs_disk_left (dirs : List GoString) :
    ∀ disk : Disk, (removeDirs diskOs dirs disk).2 =
      disk.filter (fun p => dirs.all (fun dir => !isWithin dir p)) := by
  induction dirs with
  | nil => intro disk; simp [removeDirs]
  | cons dir dirs ih =>
    intro disk
    simp only [removeDirs, diskOs_RemoveAll]
    rw [ih, List.filter_filter]
    apply List.filter_congr
    intro p _
    simp only [List.all_cons]
    cases isWithin dir p <;> simp

/-- C5, amended: after the confirmation the removal phase calls `os.Remove`
once on every matched file and then `os.RemoveAll` once on every matched
directory, each on the disk the call before left and whatever the calls
return: the log of the operating system holds these `N+M` calls in this
order and nothing else, and the run is the run of these calls.  On a disk
where a call fails only for want of its target, and with matched files that
are pairwise different, the calls that report a failure are the `os.Remove`
calls on the matched files that no longer exist, no `os.RemoveAll` call
reports one, and the disk left holds what was neither a matched file nor
within a matched directory. -/
theorem removal_phase_attempts_all (files dirs : List GoString) (disk : Disk)
    (hfiles : files.Nodup) :
    (∀ (σ : Type) (os : Os σ) (st : σ),
      confirmAndRemove (logged os) ['y'] { matchedDirs := dirs, matchedFiles := files } (st, []) =
        ((runCalls os
            (files.map (fun file => (false, file)) ++ dirs.map (fun dir => (true, dir))) st).1,
          ((runCalls os
            (files.map (fun file => (false, file)) ++ dirs.map (fun dir => (true, dir))) st).2,
            files.map (fun file => (false, file)) ++ dirs.map (fun dir => (true, dir)))) ∧
      (confirmAndRemove os ['y'] { matchedDirs := dirs, matchedFiles := files } st).1.length =
        files.length + dirs.length) ∧
    ((confirmAndRemove diskOs ['y'] { matchedDirs := dirs, matchedFiles := files } disk).1.filter
        (fun a => a.failed)).map (fun a => (a.recursive, a.path)) =
      (files.filter (fun file => decide (file ∉ disk))).map (fun file => (false, file)) ∧
    (confirmAndRemove diskOs ['y'] { matchedDirs := dirs, matchedFiles := files } disk).2 =
      disk.filter (fun p => decide (p ∉ files) && dirs.all (fun dir => !isWithin dir p)) := by
  have hyes : strings_ToLower ['y'] = ['y'] := rfl
  refine ⟨fun σ os st => ⟨?_, ?_⟩, ?_, ?_⟩
  · rw [confirmAndRemove_of_yes (logged os) ['y'] _ (st, []) hyes, runCalls_logged]
    rfl
  · rw [confirmAndRemove_of_yes os ['y'] _ st hyes, runCalls_length]
    simp [removalCalls]
  · have hf := removeFiles_disk_failed files disk hfiles
    have hmap : ((removeFiles diskOs files disk).1.filter (fun a => a.failed)).map
        (fun a => (a.recursive, a.path)) =
        (((removeFiles diskOs files disk).1.filter (fun a => a.failed)).map
          (fun a => a.path)).map (fun file => (false, file)) := by
      rw [List.map_map]
      apply List.map_congr_left
      intro a ha
      simp [removeFiles_recursive diskOs files disk a (List.mem_of_mem_filter ha)]
    simp only [confirmAndRemove, strings_ToLower, List.map_cons, List.map_nil]
    rw [if_neg (by decide)]
    simp only [List.filter_append, removeDirs_disk_failed, List.append_nil, hmap, hf]
  · simp only [confirmAndRemove, strings_ToLower, List.map_cons, List.map_nil]
    rw [if_neg (by decide)]
    simp only [removeDirs_disk_left, removeFiles_disk_left, List.filter_filter]
    apply List.filter_congr
    intro p _
    exact Bool.and_comm _ _

/-- The witness of `removal_phase_attempts_all`: two matched files, one of
them gone, and a matched directory that still holds a file. -/
theorem removal_phase_attempts_all_witness :
    ["/vol1/a.tmp".toList, "/vol1/b.tmp".toList].Nodup ∧
    ((confirmAndRemove diskOs ['y']
        { matchedDirs := ["/vol1/.Trashes/".toList],
          matchedFiles := ["/vol1/a.tmp".toList, "/vol1/b.tmp".toList] }
        ["/vol1/b.tmp".toList, "/vol1/.Trashes/".toList, "/vol1/.Trashes/501/x".toList,
          "/vol1/keep.txt".toList]).1.filter (fun a => a.failed)).map
        (fun a => (a.recursive, a.path)) =
      [(false, "/vol1/a.tmp".toList)] ∧
    (confirmAndRemove diskOs ['y']
        { matchedDirs := ["/vol1/.Trashes/".toList],
          matchedFiles := ["/vol1/a.tmp".toList, "/vol1/b.tmp".toList] }
        ["/vol1/b.tmp".toList, "/vol1/.Trashes/".toList, "/vol1/.Trashes/501/x".toList,
          "/vol1/keep.txt".toList]).2 =
      ["/vol1/keep.txt".toList] :=
  ⟨by decide,
   (removal_phase_attempts_all ["/vol1/a.tmp".toList, "/vol1/b.tmp".toList]
      ["/vol1/.Trashes/".toList]
      ["/vol1/b.tmp".toList, "/vol1/.Trashes/".toList, "/vol1/.Trashes/501/x".toList,
        "/vol1/keep.txt".toList] (by decide)).2.1,
   (removal_phase_attempts_all ["/vol1/a.tmp".toList, "/vol1/b.tmp".toList]
      ["/vol1/.Trashes/".toList]
      ["/vol1/b.tmp".toList, "/vol1/.Trashes/".toList, "/vol1/.Trashes/501/x".toList,
        "/vol1/keep.txt".toList] (by decide)).2.2⟩

/-- C5 as stated fails: one matched directory, removed before the removal
phase (`k = 1`), is attempted: the log of the operating system holds the one
call `os.RemoveAll` on it, made on a disk that does not hold the directory,
and the call reports no failure, so no attempt reports one. -/
theorem removal_phase_missing_dir_no_failure :
    (["/vol1/.Trashes/".toList].filter
      (fun p => decide (p ∉ (["/vol1/keep.txt".toList] : Disk)))).length = 1 ∧
    confirmAndRemove (logged diskOs) ['y']
        { matchedDirs := ["/vol1/.Trashes/".toList], matchedFiles := [] }
        (["/vol1/keep.txt".toList], []) =
      ([{ recursive := true, path := "/vol1/.Trashes/".toList, failed := false }],
        (["/vol1/keep.txt".toList], [(true, "/vol1/.Trashes/".toList)])) ∧
    ((confirmAndRemove diskOs ['y']
        { matchedDirs := ["/vol1/.Trashes/".toList], matchedFiles := [] }
        ["/vol1/keep.txt".toList]).1.filter (fun a => a.failed)).length = 0 := by
  decide

/-! ## Theorems: the classification loop -/

theorem matcherMapOf_lookup (rootDir : GoString) (ps : List GoString) :
    ∀ mm, matcherMapOf rootDir ps = some mm →
      ∀ P ∈ ps, mm.lookup P = compileFor rootDir P ∧ (compileFor rootDir P).isSome = true := by
  induction ps with
  | nil => intro mm _ P hP; simp at hP
  | cons p ps ih =>
    intro mm hmm P hP
    simp only [matcherMapOf] at hmm
    cases hc : compileFor rootDir p with
    | none => simp [hc] at hmm
    | some g =>
      simp only [hc] at hmm
      cases hrest : matcherMapOf rootDir ps with
      | none => simp [hrest] at hmm
      | some mm' =>
        simp only [hrest, Option.map_some', Option.some.injEq] at hmm
        subst hmm
        by_cases hPp : P = p
        · subst hPp
          simp [List.lookup, hc]
        · have hmem : P ∈ ps := by
            rcases List.mem_cons.1 hP with h | h
            · exact absurd h hPp
            · exact h
          have hne : (P == p) = false := by simpa using hPp
          simp only [List.lookup, hne]
          exact ih mm' hrest P hmem

theorem classify_eq (userDirs : List GoString) (mm : List (GoString × Glob)) (walked : Walked)
    (order : List GoString) :
    ∀ acc : Matched,
      (classify userDirs mm walked order acc).matchedDirs =
        acc.matchedDirs ++ order.flatMap (fun P =>
          match mm.lookup P with
          | some g => (classifyPattern userDirs walked { matchedDirs := [], matchedFiles := [] } P g).matchedDirs
          | none => []) ∧
      (classify userDirs mm walked order acc).matchedFiles =
        acc.matchedFiles ++ order.flatMap (fun P =>
          match mm.lookup P with
          | some g => (classifyPattern userDirs walked { matchedDirs := [], matchedFiles := [] } P g).matchedFiles
          | none => []) := by
  induction order with
  | nil => intro acc; simp [classify]
  | cons P order ih =>
    intro acc
    have hstep : classify userDirs mm walked (P :: order) acc =
        classify userDirs mm walked order
          (match mm.lookup P with
            | some matcher => classifyPattern userDirs walked acc P matcher
            | none => acc) := by
      simp [classify]
    rw [hstep, (ih _).1, (ih _).2]
    cases hl : mm.lookup P with
    | none => simp [hl]
    | some g =>
      by_cases hs : endsWithSlash P = true
      · simp [classifyPattern, hs, hl]
      · simp [classifyPattern, hs, hl]

theorem classifyRoot_eq (userDirs : List GoString) (rootDir : GoString) (walked : Walked)
    (order : List GoString) (acc res : Matched)
    (hres : classifyRoot userDirs rootDir walked order acc = some res)
    (horder : ∀ P ∈ order, P ∈ patterns) :
    res.matchedDirs = acc.matchedDirs ++ order.flatMap (fun P => walked.dirs.filter (dirHit rootDir P)) ∧
    res.matchedFiles = acc.matchedFiles ++
      order.flatMap (fun P => walked.files.filter (fileHit userDirs rootDir P)) := by
  unfold classifyRoot at hres
  cases hmm : matcherMap rootDir with
  | none => simp [hmm] at hres
  | some mm =>
    simp only [hmm, Option.map_some', Option.some.injEq] at hres
    subst hres
    rw [(classify_eq userDirs mm walked order acc).1, (classify_eq userDirs mm walked order acc).2]
    have key : ∀ P ∈ order, mm.lookup P = compileFor rootDir P ∧
        (compileFor rootDir P).isSome = true :=
      fun P hP => matcherMapOf_lookup rootDir patterns mm hmm P (horder P hP)
    constructor
    · congr 1
      apply List.flatMap_congr
      intro P hP
      obtain ⟨h1, h2⟩ := key P hP
      obtain ⟨g, hg⟩ := Option.isSome_iff_exists.1 h2
      by_cases hs : endsWithSlash P = true
      · simp only [classifyPattern, hs, h1, hg, if_true, matchDirs]
        exact List.filter_congr (fun d _ => by simp [dirHit, hs, hg])
      · simp [classifyPattern, hs, h1, hg, dirHit]
    · congr 1
      apply List.flatMap_congr
      intro P hP
      obtain ⟨h1, h2⟩ := key P hP
      obtain ⟨g, hg⟩ := Option.isSome_iff_exists.1 h2
      by_cases hs : endsWithSlash P = true
      · simp [classifyPattern, hs, h1, hg, fileHit]
      · simp only [classifyPattern, hs, h1, hg, matchFiles]
        exact List.filter_congr (fun f _ => by simp [fileHit, hs, hg])

theorem count_flatMap_filter (hit : GoString → GoString → Bool) (xs : List GoString)
    (E : GoString) (l : List GoString) :
    (l.flatMap (fun P => xs.filter (hit P))).count E =
      xs.count E * (l.filter (fun P => hit P E)).length := by
  induction l with
  | nil => simp
  | cons P l ih =>
    rw [List.flatMap_cons, List.count_append, ih]
    by_cases h : hit P E = true
    · rw [List.count_filter h]
      simp only [List.filter_cons, h, if_true, List.length_cons]
      rw [Nat.mul_succ, Nat.add_comm]
    · have h0 : (xs.filter (hit P)).count E = 0 :=
        List.count_eq_zero.2 (fun hmem => h (List.mem_filter.1 hmem).2)
      rw [h0]
      simp [List.filter_cons, h]

/-- C2: under a root whose patterns all compile, a walked directory is put
in `matchedDirs` exactly when some catalog pattern ending in `/` has a
matcher, compiled from the lower-cased root and pattern with the separator
`/`, that matches the lower-cased path of the directory; a round of the loop
for a pattern that does not end in `/` leaves `matchedDirs` as it is. -/
theorem matchedDirs_iff_dir_pattern_matches (userDirs : List GoString) (rootDir : GoString)
    (walked : Walked) (order : List GoString) (res : Matched) (D : GoString)
    (hres : classifyRoot userDirs rootDir walked order { matchedDirs := [], matchedFiles := [] } = some res)
    (horder : order.Perm patterns) (hD : D ∈ walked.dirs) :
    (D ∈ res.matchedDirs ↔
      ∃ P ∈ patterns, endsWithSlash P = true ∧
        ∃ g, glob_MustCompile (strings_ToLower (rootDir ++ P)) '/' = some g ∧
          g.Match (strings_ToLower D) = true) ∧
    (∀ (P : GoString) (g : Glob) (acc : Matched), endsWithSlash P = false →
      (classifyPattern userDirs walked acc P g).matchedDirs = acc.matchedDirs) := by
  constructor
  · have h := (classifyRoot_eq userDirs rootDir walked order _ res hres
      (fun P hP => horder.mem_iff.1 hP)).1
    rw [h]
    simp only [List.nil_append, List.mem_flatMap, List.mem_filter]
    constructor
    · rintro ⟨P, hP, _, hhit⟩
      refine ⟨P, horder.mem_iff.1 hP, ?_⟩
      unfold dirHit compileFor at hhit
      cases hc : glob_MustCompile (strings_ToLower (rootDir ++ P)) '/' with
      | none => simp [hc] at hhit
      | some g =>
        simp only [hc, Bool.and_eq_true] at hhit
        exact ⟨hhit.1, g, rfl, hhit.2⟩
    · rintro ⟨P, hP, hs, g, hg, hm⟩
      refine ⟨P, horder.mem_iff.2 hP, hD, ?_⟩
      unfold dirHit compileFor
      simp [hs, hg, hm]
  · intro P g acc hs
    simp [classifyPattern, hs]

/-- The witness of `matchedDirs_iff_dir_pattern_matches`: the root `/vol1/`
with the walked directories `/vol1/` and `/vol1/$RECYCLE.BIN/`. -/
theorem matchedDirs_iff_dir_pattern_matches_witness :
    "/vol1/$RECYCLE.BIN/".toList ∈
        ({ matchedDirs := ["/vol1/$RECYCLE.BIN/".toList], matchedFiles := [] } : Matched).matchedDirs ↔
      ∃ P ∈ patterns, endsWithSlash P = true ∧
        ∃ g, glob_MustCompile (strings_ToLower ("/vol1/".toList ++ P)) '/' = some g ∧
          g.Match (strings_ToLower "/vol1/$RECYCLE.BIN/".toList) = true :=
  (matchedDirs_iff_dir_pattern_matches [] "/vol1/".toList
    { dirs := ["/vol1/".toList, "/vol1/$RECYCLE.BIN/".toList], files := [] } patterns
    { matchedDirs := ["/vol1/$RECYCLE.BIN/".toList], matchedFiles := [] } "/vol1/$RECYCLE.BIN/".toList
    (by decide) (List.Perm.refl _) (by decide)).1

/-- C9, amended: under a root whose patterns all compile, an entry is put in
`matchedFiles` once for every catalog pattern not ending in `/` whose matcher
matches it (the matches dropped by the rule on `**/Desktop.ini` apart), and in
`matchedDirs` once for every catalog pattern ending in `/` whose matcher
matches it: the number of its occurrences is the number of its occurrences in
the walked list times the number of such patterns. -/
theorem match_count_is_pattern_count (userDirs : List GoString) (rootDir : GoString)
    (walked : Walked) (order : List GoString) (res : Matched) (E : GoString)
    (hres : classifyRoot userDirs rootDir walked order { matchedDirs := [], matchedFiles := [] } = some res)
    (horder : order.Perm patterns) :
    res.matchedFiles.count E =
      walked.files.count E * (patterns.filter (fun P => fileHit userDirs rootDir P E)).length ∧
    res.matchedDirs.count E =
      walked.dirs.count E * (patterns.filter (fun P => dirHit rootDir P E)).length := by
  obtain ⟨hd, hf⟩ := classifyRoot_eq userDirs rootDir walked order _ res hres
    (fun P hP => horder.mem_iff.1 hP)
  rw [hd, hf]
  simp only [List.nil_append]
  rw [count_flatMap_filter (fileHit userDirs rootDir), count_flatMap_filter (dirHit rootDir)]
  rw [(horder.filter (fun P => fileHit userDirs rootDir P E)).length_eq,
    (horder.filter (fun P => dirHit rootDir P E)).length_eq]
  exact ⟨rfl, rfl⟩

/-- The witness of `match_count_is_pattern_count`: the file `/vol1/x/~$a.tmp`
under the root `/vol1/`. -/
theorem match_count_is_pattern_count_witness :
    ({ matchedDirs := [], matchedFiles := ["/vol1/x/~$a.tmp".toList, "/vol1/x/~$a.tmp".toList] } :
        Matched).matchedFiles.count "/vol1/x/~$a.tmp".toList =
      ["/vol1/x/~$a.tmp".toList].count "/vol1/x/~$a.tmp".toList *
        (patterns.filter
          (fun P => fileHit [] "/vol1/".toList P "/vol1/x/~$a.tmp".toList)).length :=
  (match_count_is_pattern_count [] "/vol1/".toList
    { dirs := [], files := ["/vol1/x/~$a.tmp".toList] } patterns
    { matchedDirs := [], matchedFiles := ["/vol1/x/~$a.tmp".toList, "/vol1/x/~$a.tmp".toList] }
    "/vol1/x/~$a.tmp".toList (by decide) (List.Perm.refl _)).1

/-- C9 as stated fails: under the root `/vol1/` the file `/vol1/x/~$a.tmp` is
matched by the matchers of `**/*.tmp` and of `**/~$*`, and it stands twice in
`matchedFiles`. -/
theorem matchedFiles_holds_a_file_twice :
    classifyRoot [] "/vol1/".toList { dirs := [], files := ["/vol1/x/~$a.tmp".toList] }
        patterns { matchedDirs := [], matchedFiles := [] } =
      some { matchedDirs := [],
             matchedFiles := ["/vol1/x/~$a.tmp".toList, "/vol1/x/~$a.tmp".toList] } ∧
    ((compileFor "/vol1/".toList "**/*.tmp".toList).map
      (fun g => g.Match (strings_ToLower "/vol1/x/~$a.tmp".toList))) = some true ∧
    ((compileFor "/vol1/".toList "**/~$*".toList).map
      (fun g => g.Match (strings_ToLower "/vol1/x/~$a.tmp".toList))) = some true := by
  decide

theorem classify_append (userDirs : List GoString) (mm : List (GoString × Glob))
    (walked : Walked) (order : List GoString) (acc : Matched) :
    classify userDirs mm walked order acc =
      { matchedDirs := acc.matchedDirs ++
          (classify userDirs mm walked order { matchedDirs := [], matchedFiles := [] }).matchedDirs,
        matchedFiles := acc.matchedFiles ++
          (classify userDirs mm walked order { matchedDirs := [], matchedFiles := [] }).matchedFiles } := by
  have h1 := classify_eq userDirs mm walked order acc
  have h2 := classify_eq userDirs mm walked order { matchedDirs := [], matchedFiles := [] }
  cases hc : classify userDirs mm walked order acc with
  | mk d f =>
    rw [hc] at h1
    simp only [List.nil_append] at h2
    simp only [Matched.mk.injEq]
    exact ⟨by rw [h2.1]; exact h1.1, by rw [h2.2]; exact h1.2⟩

/-- C10: when the patterns compile under every root, the matches of the run
are those of the roots whose walk succeeded, root after root in the order of
`rootDirs`; a root whose walk returns an error adds nothing and leaves the
matches of the other roots as they are. -/
theorem classifyRoots_concatenates_walked_roots (fs : FileSystem) (userDirs : List GoString)
    (runs : List RootRun)
    (hcompile : ∀ run ∈ runs, (matcherMap run.rootDir).isSome = true) :
    ∀ acc : Matched, classifyRoots fs userDirs runs acc =
      some { matchedDirs := acc.matchedDirs ++
               (runs.filter (walkSucceeds fs)).flatMap
                 (fun run => (rootMatches fs userDirs run).matchedDirs),
             matchedFiles := acc.matchedFiles ++
               (runs.filter (walkSucceeds fs)).flatMap
                 (fun run => (rootMatches fs userDirs run).matchedFiles) } := by
  induction runs with
  | nil => intro acc; simp [classifyRoots]
  | cons run runs ih =>
    intro acc
    have hrest : ∀ r ∈ runs, (matcherMap r.rootDir).isSome = true :=
      fun r hr => hcompile r (List.mem_cons_of_mem _ hr)
    obtain ⟨mm, hmm⟩ := Option.isSome_iff_exists.1 (hcompile run (List.mem_cons_self _ _))
    cases hw : getAllDirsAndFiles fs run.rootDir with
    | error e =>
      have hsucc : walkSucceeds fs run = false := by simp [walkSucceeds, hw]
      simp only [classifyRoots, hmm, hw, ih hrest]
      simp [List.filter_cons, hsucc]
    | ok walked =>
      have hsucc : walkSucceeds fs run = true := by simp [walkSucceeds, hw]
      have hroot : rootMatches fs userDirs run =
          classify userDirs mm walked run.order { matchedDirs := [], matchedFiles := [] } := by
        simp [rootMatches, hw, classifyRoot, hmm]
      simp only [classifyRoots, hmm, hw, ih hrest]
      rw [classify_append]
      simp [List.filter_cons, hsucc, hroot, List.append_assoc]

/-- The witness of `classifyRoots_concatenates_walked_roots`: the root `/a/`,
whose walk fails, and the root `/b/`, which holds `x/Thumbs.db`. -/
theorem classifyRoots_concatenates_walked_roots_witness :
    classifyRoots
        (fun path =>
          if path = "\\a".toList then RootInfo.lstatError (WalkError.other "EIO".toList)
          else RootInfo.dir
            (Entries.dir "x".toList (Entries.file "Thumbs.db".toList Entries.nil) none
              Entries.nil) none)
        []
        [{ rootDir := "/a/".toList, order := patterns },
         { rootDir := "/b/".toList, order := patterns }]
        { matchedDirs := [], matchedFiles := [] } =
      some { matchedDirs := [], matchedFiles := ["/b/x/Thumbs.db".toList] } := by
  rw [classifyRoots_concatenates_walked_roots _ _ _ (by decide)]
  decide

theorem classifyRoots_perm (fs : FileSystem) (userDirs : List GoString)
    (runs1 runs2 : List RootRun)
    (h : List.Forall₂ (fun a b => a.rootDir = b.rootDir ∧ a.order.Perm b.order) runs1 runs2) :
    ∀ acc1 acc2 m1 : Matched, acc1.matchedDirs.Perm acc2.matchedDirs → acc1.matchedFiles.Perm acc2.matchedFiles →
      classifyRoots fs userDirs runs1 acc1 = some m1 →
      ∃ m2, classifyRoots fs userDirs runs2 acc2 = some m2 ∧
        m1.matchedDirs.Perm m2.matchedDirs ∧ m1.matchedFiles.Perm m2.matchedFiles := by
  induction h with
  | nil =>
    intro acc1 acc2 m1 hd hf h1
    simp only [classifyRoots, Option.some.injEq] at h1
    subst h1
    exact ⟨acc2, rfl, hd, hf⟩
  | @cons a b l1 l2 hab _ ih =>
    intro acc1 acc2 m1 hd hf h1
    obtain ⟨hroot, hord⟩ := hab
    simp only [classifyRoots] at h1 ⊢
    rw [← hroot]
    cases hmm : matcherMap a.rootDir with
    | none => simp [hmm] at h1
    | some mm =>
      simp only [hmm] at h1 ⊢
      cases hw : getAllDirsAndFiles fs a.rootDir with
      | error e =>
        simp only [hw] at h1 ⊢
        exact ih acc1 acc2 m1 hd hf h1
      | ok walked =>
        simp only [hw] at h1 ⊢
        refine ih _ _ m1 ?_ ?_ h1
        · rw [(classify_eq userDirs mm walked a.order acc1).1,
            (classify_eq userDirs mm walked b.order acc2).1]
          exact hd.append (hord.flatMap_right _)
        · rw [(classify_eq userDirs mm walked a.order acc1).2,
            (classify_eq userDirs mm walked b.order acc2).2]
          exact hf.append (hord.flatMap_right _)

/-- C8, amended: for fixed roots, walked entries and user directories, two
runs of the classification loop that range over the pattern-to-matcher maps
in different orders both end or both panic, and they yield the same matched
directories and the same matched files with the same numbers of occurrences:
the lists of one run are permutations of those of the other. -/
theorem classification_is_deterministic_up_to_order (fs : FileSystem)
    (userDirs : List GoString) (runs1 runs2 : List RootRun) (m1 : Matched)
    (h : List.Forall₂ (fun a b => a.rootDir = b.rootDir ∧ a.order.Perm b.order) runs1 runs2)
    (h1 : classifyRoots fs userDirs runs1 { matchedDirs := [], matchedFiles := [] } = some m1) :
    ∃ m2, classifyRoots fs userDirs runs2 { matchedDirs := [], matchedFiles := [] } = some m2 ∧
      m1.matchedDirs.Perm m2.matchedDirs ∧ m1.matchedFiles.Perm m2.matchedFiles :=
  classifyRoots_perm fs userDirs runs1 runs2 h _ _ m1 (List.Perm.refl _) (List.Perm.refl _) h1

/-- The witness of `classification_is_deterministic_up_to_order`: the root
`/vol1/`, ranged over in the order of the catalog and in the reverse order. -/
theorem classification_is_deterministic_up_to_order_witness :
    ∃ m2, classifyRoots exampleFs []
        [{ rootDir := "/vol1/".toList, order := patterns.reverse }]
        { matchedDirs := [], matchedFiles := [] } = some m2 ∧
      ([] : List GoString).Perm m2.matchedDirs ∧
      ["/vol1/x/b~".toList, "/vol1/x/a.tmp".toList].Perm m2.matchedFiles :=
  classification_is_deterministic_up_to_order exampleFs []
    [{ rootDir := "/vol1/".toList, order := patterns }]
    [{ rootDir := "/vol1/".toList, order := patterns.reverse }]
    { matchedDirs := [], matchedFiles := ["/vol1/x/b~".toList, "/vol1/x/a.tmp".toList] }
    (List.Forall₂.cons ⟨rfl, (List.reverse_perm patterns).symm⟩ List.Forall₂.nil)
    (by decide)

/-- C8 as stated fails: with the same root, walked entries and user
directories, a run that ranges over the map in the order of the catalog and a
run that ranges over it in the reverse order yield `matchedFiles` in different
orders. -/
theorem classification_order_depends_on_map_order :
    patterns.reverse.Perm patterns ∧
    classifyRoots exampleFs [] [{ rootDir := "/vol1/".toList, order := patterns }]
        { matchedDirs := [], matchedFiles := [] } =
      some { matchedDirs := [], matchedFiles := ["/vol1/x/b~".toList, "/vol1/x/a.tmp".toList] } ∧
    classifyRoots exampleFs [] [{ rootDir := "/vol1/".toList, order := patterns.reverse }]
        { matchedDirs := [], matchedFiles := [] } =
      some { matchedDirs := [], matchedFiles := ["/vol1/x/a.tmp".toList, "/vol1/x/b~".toList] } :=
  ⟨List.reverse_perm patterns, by decide, by decide⟩

/-! ## Theorems: patterns read after the text of a root -/

theorem readAsSyntax_of_Special (R : GoString) (h : ∀ c ∈ R, Special c = false) :
    ∀ c ∈ R, readAsSyntax c = false := by
  intro c hc
  have := h c hc
  simp only [Special, Bool.or_eq_false_iff] at this
  simp only [readAsSyntax, Bool.or_eq_false_iff]
  tauto

theorem readAsSyntax_toLower (c : Char) (h : readAsSyntax c = false) :
    readAsSyntax c.toLower = false := by
  by_cases hc : 65 ≤ c.toNat ∧ c.toNat ≤ 90
  · have hofNat : c = Char.ofNat c.toNat := (Char.ofNat_toNat c).symm
    obtain ⟨h1, h2⟩ := hc
    generalize c.toNat = n at hofNat h1 h2
    subst hofNat
    interval_cases n <;> rfl
  · have : c.toLower = c := by
      unfold Char.toLower
      simp only [ge_iff_le]
      rw [if_neg hc]
    rw [this]
    exact h

theorem readAsSyntax_strings_ToLower (R : GoString) (h : ∀ c ∈ R, readAsSyntax c = false) :
    ∀ c ∈ strings_ToLower R, readAsSyntax c = false := by
  intro c hc
  obtain ⟨d, hd, rfl⟩ := List.mem_map.1 hc
  exact readAsSyntax_toLower d (h d hd)

theorem toLower_eq_RuneError (c : Char) : c.toLower = RuneError ↔ c = RuneError := by
  by_cases hc : 65 ≤ c.toNat ∧ c.toNat ≤ 90
  · have hofNat : c = Char.ofNat c.toNat := (Char.ofNat_toNat c).symm
    obtain ⟨h1, h2⟩ := hc
    generalize c.toNat = n at hofNat h1 h2
    subst hofNat
    interval_cases n <;> decide
  · have : c.toLower = c := by
      unfold Char.toLower
      simp only [ge_iff_le]
      rw [if_neg hc]
    rw [this]

theorem RuneError_mem_strings_ToLower (R : GoString) :
    RuneError ∈ strings_ToLower R ↔ RuneError ∈ R := by
  unfold strings_ToLower
  constructor
  · intro h
    obtain ⟨d, hd, hdl⟩ := List.mem_map.1 h
    rw [(toLower_eq_RuneError d).1 hdl] at hd
    exact hd
  · intro h
    exact List.mem_map.2 ⟨RuneError, h, (toLower_eq_RuneError RuneError).2 rfl⟩

theorem lexMain_plain (R : GoString) (h : ∀ c ∈ R, readAsSyntax c = false) :
    ∀ (data rest : GoString),
      lexMain 0 data false false (R ++ rest) = lexMain 0 (data ++ R) false false rest := by
  induction R with
  | nil => intro data rest; simp
  | cons r R ih =>
    intro data rest
    have hr : readAsSyntax r = false := h r (List.mem_cons_self _ _)
    have hR : ∀ c ∈ R, readAsSyntax c = false := fun c hc => h c (List.mem_cons_of_mem _ hc)
    simp only [readAsSyntax, Bool.or_eq_false_iff, beq_eq_false_iff_ne, ne_eq] at hr
    obtain ⟨⟨⟨⟨h1, h2⟩, h3⟩, h4⟩, h6⟩ := hr
    have := ih hR (data ++ [r]) rest
    simp only [List.append_assoc, List.singleton_append] at this
    simp [lexMain, h1, h2, h3, h4, h6, this]

theorem lexMain_star_head (lvl : Nat) (rest : GoString) (ts : List Token)
    (h : lexMain lvl [] false true rest = some ts) :
    ∃ ts', ts = Token.Any :: ts' ∨ ts = Token.Super :: ts' := by
  cases rest with
  | nil =>
    simp [lexMain, flushText] at h
    exact ⟨[], Or.inl h.symm⟩
  | cons r rest =>
    by_cases hr : r = '*'
    · subst hr
      simp only [lexMain, Bool.true_and, beq_self_eq_true, if_true, Option.map_eq_some'] at h
      obtain ⟨ts', _, rfl⟩ := h
      exact ⟨ts', Or.inr rfl⟩
    · have hne : (r == '*') = false := by simpa using hr
      simp only [lexMain, Bool.true_and, hne, Bool.false_eq_true, if_false, if_true,
        Option.map_eq_some'] at h
      obtain ⟨ts', _, rfl⟩ := h
      exact ⟨ts', Or.inl rfl⟩

theorem underTok_flush (b data : GoString) (hb : b ≠ []) (ts : List Token)
    (hts : data = [] → ∀ t ts', ts ≠ Token.Text t :: ts') :
    flushText (b ++ data) ++ ts = underTok b (flushText data ++ ts) := by
  cases data with
  | nil =>
    have hne : ¬ (b = []) := hb
    simp only [flushText, List.append_nil, List.isEmpty_iff, hne, if_false, if_true,
      List.nil_append, List.singleton_append]
    cases ts with
    | nil => rfl
    | cons t ts' =>
      cases t <;> first | rfl | exact absurd rfl (hts rfl _ _)
  | cons d data =>
    simp [flushText, underTok]

theorem lexMain_under (b : GoString) (hb : b ≠ []) (P : GoString) :
    ∀ (lvl : Nat) (data : GoString) (esc : Bool),
      lexMain lvl (b ++ data) esc false P =
        (lexMain lvl data esc false P).map (underTok b) := by
  induction P with
  | nil =>
    intro lvl data esc
    simp only [lexMain, Bool.false_eq_true, if_false, List.append_nil, Option.map_some',
      Option.some.injEq]
    have := underTok_flush b data hb [] (fun _ t ts' => by simp)
    simpa using this
  | cons r P ih =>
    intro lvl data esc
    have key : ∀ (x : Option (List Token)) (tok : Token),
        (∀ t, tok ≠ Token.Text t) →
        x.map (fun ts => flushText (b ++ data) ++ tok :: ts) =
          (x.map (fun ts => flushText data ++ tok :: ts)).map (underTok b) := by
      intro x tok htok
      rw [Option.map_map]
      congr 1
      funext ts
      exact underTok_flush b data hb (tok :: ts)
        (fun _ t ts' h => htok t (List.cons.inj h).1)
    simp only [lexMain, Bool.false_and, Bool.false_eq_true, if_false, List.nil_append,
      Option.map_id']
    by_cases hesc : esc = true
    · simp only [hesc, if_true]
      have := ih lvl (data ++ [r]) false
      simpa [List.append_assoc] using this
    · simp only [hesc, Bool.false_eq_true, if_false]
      by_cases h1 : (r == '\\') = true
      · simp only [h1, if_true]
        exact ih lvl data true
      simp only [h1, Bool.false_eq_true, if_false]
      by_cases h2 : (r == '{') = true
      · simp only [h2, if_true]
        exact key _ _ (fun t h => by cases h)
      simp only [h2, Bool.false_eq_true, if_false]
      by_cases h3 : (r == ',' && lvl != 0) = true
      · simp only [h3, if_true]
        exact key _ _ (fun t h => by cases h)
      simp only [h3, Bool.false_eq_true, if_false]
      by_cases h4 : (r == '}' && lvl != 0) = true
      · simp only [h4, if_true]
        exact key _ _ (fun t h => by cases h)
      simp only [h4, Bool.false_eq_true, if_false]
      by_cases h5 : (r == '[') = true
      · simp only [h5, if_true]
        exact key _ _ (fun t h => by cases h)
      simp only [h5, Bool.false_eq_true, if_false]
      by_cases h6 : (r == '?') = true
      · simp only [h6, if_true]
        exact key _ _ (fun t h => by cases h)
      simp only [h6, Bool.false_eq_true, if_false]
      by_cases h7 : (r == '*') = true
      · simp only [h7, if_true]
        cases hx : lexMain lvl [] false true P with
        | none => rfl
        | some ts =>
          obtain ⟨ts', hts'⟩ := lexMain_star_head lvl P ts hx
          simp only [Option.map_some', Option.some.injEq]
          apply underTok_flush b data hb ts
          intro _ t ts''
          rcases hts' with h | h <;> rw [h] <;> intro hcontra <;> cases hcontra
      simp only [h7, Bool.false_eq_true, if_false]
      have := ih lvl (data ++ [r]) false
      simpa [List.append_assoc] using this

theorem closeAll_addPre (pre : List Node) :
    ∀ (stack : List Frame), stack ≠ [] → ∀ cur : List Node,
      closeAll (addPre pre stack) cur = pre ++ closeAll stack cur := by
  intro stack
  induction stack with
  | nil => intro h; exact absurd rfl h
  | cons f stack ih =>
    intro _ cur
    cases stack with
    | nil => simp [addPre, closeAll]
    | cons g stack =>
      simp only [addPre, closeAll]
      exact ih (by simp) _

theorem parser_addPre (pre : List Node) :
    ∀ toks : List Token,
      (∀ (stack : List Frame) (cur : List Node),
        parserMain (addPre pre stack)
            (match stack with
              | [] => pre ++ cur
              | _ :: _ => cur) toks =
          (parserMain stack cur toks).map (fun ns => pre ++ ns)) ∧
      (∀ (stack : List Frame) (cur : List Node) (not : Bool) (lo hi : Char) (chars : GoString),
        parserRange (addPre pre stack)
            (match stack with
              | [] => pre ++ cur
              | _ :: _ => cur) not lo hi chars toks =
          (parserRange stack cur not lo hi chars toks).map (fun ns => pre ++ ns)) := by
  intro toks
  induction toks with
  | nil =>
    refine ⟨fun stack cur => ?_, fun stack cur not lo hi chars => ?_⟩
    · cases stack with
      | nil => simp [parserMain, addPre, closeAll]
      | cons f stack =>
        simp only [parserMain, Option.map_some', Option.some.injEq]
        exact closeAll_addPre pre (f :: stack) (by simp) cur
    · simp [parserRange]
  | cons tok toks ih =>
    obtain ⟨ihm, ihr⟩ := ih
    have happ : ∀ (stack : List Frame) (cur : List Node) (n : Node),
        (match stack with
          | [] => pre ++ cur
          | _ :: _ => cur) ++ [n] =
        (match stack with
          | [] => pre ++ (cur ++ [n])
          | _ :: _ => cur ++ [n]) := by
      intro stack cur n
      cases stack <;> simp
    refine ⟨fun stack cur => ?_, fun stack cur not lo hi chars => ?_⟩
    · cases tok with
      | Text raw => simp only [parserMain, happ]; exact ihm stack _
      | Any => simp only [parserMain, happ]; exact ihm stack _
      | Super => simp only [parserMain, happ]; exact ihm stack _
      | Single => simp only [parserMain, happ]; exact ihm stack _
      | RangeOpen => simp only [parserMain]; exact ihr stack cur _ _ _ _
      | TermsOpen =>
        simp only [parserMain]
        cases stack with
        | nil => exact ihm [{ before := cur, alts := [] }] []
        | cons f stack => exact ihm ({ before := cur, alts := [] } :: f :: stack) []
      | Separator =>
        cases stack with
        | nil => simp [parserMain, addPre]
        | cons f stack =>
          cases stack with
          | nil =>
            simp only [parserMain, addPre]
            exact ihm [{ before := f.before, alts := f.alts ++ [cur] }] []
          | cons g stack =>
            simp only [parserMain, addPre]
            exact ihm ({ before := f.before, alts := f.alts ++ [cur] } :: g :: stack) []
      | TermsClose =>
        cases stack with
        | nil => simp [parserMain, addPre]
        | cons f stack =>
          cases stack with
          | nil =>
            simp only [parserMain, addPre, List.append_assoc]
            exact ihm [] (f.before ++ [Node.AnyOf (f.alts ++ [cur])])
          | cons g stack =>
            simp only [parserMain, addPre]
            exact ihm (g :: stack) (f.before ++ [Node.AnyOf (f.alts ++ [cur])])
      | Not => simp [parserMain]
      | RangeClose => simp [parserMain]
      | RangeLo r => simp [parserMain]
      | RangeHi r => simp [parserMain]
      | RangeBetween => simp [parserMain]
    · cases tok with
      | Not => simp only [parserRange]; exact ihr stack cur _ _ _ _
      | RangeLo r => simp only [parserRange]; exact ihr stack cur _ _ _ _
      | RangeBetween => simp only [parserRange]; exact ihr stack cur _ _ _ _
      | RangeHi r =>
        simp only [parserRange]
        by_cases hlt : r < lo
        · simp [hlt]
        · simp only [hlt, if_false]; exact ihr stack cur _ _ _ _
      | Text raw => simp only [parserRange]; exact ihr stack cur _ _ _ _
      | RangeClose =>
        simp only [parserRange, happ]
        split
        · simp
        · split
          · exact ihm stack _
          · exact ihm stack _
      | Any => simp only [parserRange]; exact ihr stack cur _ _ _ _
      | Super => simp only [parserRange]; exact ihr stack cur _ _ _ _
      | Single => simp only [parserRange]; exact ihr stack cur _ _ _ _
      | Separator => simp only [parserRange]; exact ihr stack cur _ _ _ _
      | RangeOpen => simp only [parserRange]; exact ihr stack cur _ _ _ _
      | TermsOpen => simp only [parserRange]; exact ihr stack cur _ _ _ _
      | TermsClose => simp only [parserRange]; exact ihr stack cur _ _ _ _

theorem parserMain_underTok (b : GoString) (toks : List Token) (h : plainStart toks = true) :
    parserMain [] [] (underTok b toks) = (parserMain [] [] toks).map (underText b) := by
  have hpre : ∀ (pre : List Node) (ts : List Token),
      parserMain [] pre ts = (parserMain [] [] ts).map (fun ns => pre ++ ns) := by
    intro pre ts
    have := (parser_addPre pre ts).1 [] []
    simpa [addPre] using this
  cases toks with
  | nil => simp [underTok, parserMain, closeAll, underText]
  | cons tok toks =>
    cases tok with
    | Text raw =>
      simp only [underTok, parserMain, List.nil_append]
      rw [hpre [Node.Text (b ++ raw)], hpre [Node.Text raw], Option.map_map]
      rfl
    | Any =>
      simp only [underTok, parserMain, List.nil_append, List.singleton_append]
      rw [hpre [Node.Text b, Node.Any], hpre [Node.Any], Option.map_map]
      rfl
    | Super =>
      simp only [underTok, parserMain, List.nil_append, List.singleton_append]
      rw [hpre [Node.Text b, Node.Super], hpre [Node.Super], Option.map_map]
      rfl
    | Single =>
      simp only [underTok, parserMain, List.nil_append, List.singleton_append]
      rw [hpre [Node.Text b, Node.Single], hpre [Node.Single], Option.map_map]
      rfl
    | Not => simp [plainStart] at h
    | Separator => simp [plainStart] at h
    | RangeOpen => simp [plainStart] at h
    | RangeClose => simp [plainStart] at h
    | RangeLo r => simp [plainStart] at h
    | RangeHi r => simp [plainStart] at h
    | RangeBetween => simp [plainStart] at h
    | TermsOpen => simp [plainStart] at h
    | TermsClose => simp [plainStart] at h

/-- A pattern that follows a root free of the runes read as syntax and of
`utf8.RuneError` is parsed like the pattern alone, the lower-cased root
joining its first text. -/
theorem Parse_under_root (R P : GoString) (hR : ∀ c ∈ R, readAsSyntax c = false)
    (hrune : RuneError ∉ R) (hne : R ≠ [])
    (hP : plainStart ((lexer P).getD []) = true) :
    Parse (strings_ToLower R ++ P) = (Parse P).map (underText (strings_ToLower R)) := by
  have hb : strings_ToLower R ≠ [] := by
    intro h
    exact hne (List.map_eq_nil_iff.1 h)
  have h1 := lexMain_plain (strings_ToLower R) (readAsSyntax_strings_ToLower R hR) [] P
  have h2 := lexMain_under (strings_ToLower R) hb P 0 [] false
  simp only [List.nil_append, List.append_nil] at h1 h2
  have hrune' : RuneError ∉ strings_ToLower R :=
    fun h => hrune ((RuneError_mem_strings_ToLower R).1 h)
  unfold Parse lexer
  by_cases hPr : RuneError ∈ P
  · rw [if_pos (List.mem_append_right _ hPr), if_pos hPr]
    rfl
  · have hboth : RuneError ∉ strings_ToLower R ++ P := by
      intro h
      rcases List.mem_append.1 h with h | h
      · exact hrune' h
      · exact hPr h
    rw [if_neg hboth, if_neg hPr, h1, h2]
    cases hl : lexMain 0 [] false false P with
    | none => rfl
    | some toks =>
      have hP' : plainStart toks = true := by simpa [lexer, hPr, hl] using hP
      simp only [Option.map_some', Option.some_bind]
      exact parserMain_underTok _ toks hP'

/-- A pattern that holds `utf8.RuneError` does not parse. -/
theorem Parse_RuneError (pattern : GoString) (h : RuneError ∈ pattern) :
    Parse pattern = none := by
  unfold Parse lexer
  rw [if_pos h]
  rfl

/-! ## Theorems: the matchers of the catalog -/

theorem catalog_parses :
    ∀ P ∈ patterns, plainStart ((lexer (strings_ToLower P)).getD []) = true ∧
      (Parse (strings_ToLower P)).isSome = true := by
  decide

theorem strings_ToLower_append (a b : GoString) :
    strings_ToLower (a ++ b) = strings_ToLower a ++ strings_ToLower b := by
  simp [strings_ToLower]

theorem compileFor_under_root (R P : GoString) (hR : ∀ c ∈ R, readAsSyntax c = false)
    (hrune : RuneError ∉ R) (hne : R ≠ []) (hP : P ∈ patterns) :
    compileFor R P =
      (Parse (strings_ToLower P)).map
        (fun ns => { nodes := underText (strings_ToLower R) ns, sep := '/' }) := by
  unfold compileFor glob_MustCompile glob_Compile
  rw [strings_ToLower_append, Parse_under_root R _ hR hrune hne (catalog_parses P hP).1,
    Option.map_map]
  rfl

theorem compileFor_isSome (R P : GoString) (hR : ∀ c ∈ R, readAsSyntax c = false)
    (hrune : RuneError ∉ R) (hP : P ∈ patterns) : (compileFor R P).isSome = true := by
  by_cases hne : R = []
  · subst hne
    have := (catalog_parses P hP).2
    simpa [compileFor, glob_MustCompile, glob_Compile] using this
  · rw [compileFor_under_root R P hR hrune hne hP]
    have := (catalog_parses P hP).2
    simpa using this

/-- A root that holds `utf8.RuneError` has no matcher: `glob.MustCompile`
panics. -/
theorem compileFor_RuneError (R P : GoString) (h : RuneError ∈ R) : compileFor R P = none := by
  unfold compileFor glob_MustCompile glob_Compile
  rw [Parse_RuneError _ ((RuneError_mem_strings_ToLower _).2 (List.mem_append_left _ h))]
  rfl

theorem matcherMapOf_isSome (R : GoString) (ps : List GoString)
    (h : ∀ P ∈ ps, (compileFor R P).isSome = true) : (matcherMapOf R ps).isSome = true := by
  induction ps with
  | nil => rfl
  | cons p ps ih =>
    obtain ⟨g, hg⟩ := Option.isSome_iff_exists.1 (h p (List.mem_cons_self _ _))
    obtain ⟨mm, hmm⟩ := Option.isSome_iff_exists.1
      (ih (fun P hP => h P (List.mem_cons_of_mem _ hP)))
    simp [matcherMapOf, hg, hmm]

theorem matcherMap_isSome (R : GoString) (hR : ∀ c ∈ R, readAsSyntax c = false)
    (hrune : RuneError ∉ R) : (matcherMap R).isSome = true :=
  matcherMapOf_isSome R patterns (fun P hP => compileFor_isSome R P hR hrune hP)

theorem asPrefixSuffix_text_head (x : GoString) (rest : List Node) (p q : GoString)
    (h : asPrefixSuffix (Node.Text x :: rest) = some (p, q)) : p = x := by
  match rest, h with
  | [n1, n2], h =>
    cases n1 <;> simp only [asPrefixSuffix, reduceCtorEq] at h
    simp only [asText] at h
    split at h
    · next p' q' hp' _ =>
      simp only [Option.some.injEq, Prod.mk.injEq] at h hp'
      rw [← h.1, hp']
    · simp at h
  | [], h => simp [asPrefixSuffix] at h
  | [_], h => simp [asPrefixSuffix] at h
  | _ :: _ :: _ :: _, h => simp [asPrefixSuffix] at h

theorem Glob_Match_text_head (x : GoString) (rest : List Node) (sep : Char) (s : GoString)
    (h : Glob.Match { nodes := Node.Text x :: rest, sep := sep } s = true) : x <+: s := by
  unfold Glob.Match at h
  split at h
  · next p q hpq =>
    have hp : p = x := asPrefixSuffix_text_head x rest p q hpq
    subst hp
    simp only [strings_HasPrefix, Bool.and_eq_true, List.isPrefixOf_iff_prefix] at h
    exact h.1
  · simp only [matchSeq, matchNode, List.any_eq_true, List.mem_flatMap] at h
    obtain ⟨r, ⟨r1, hr1, _⟩, _⟩ := h
    by_cases hx : x.isPrefixOf s = true
    · exact List.isPrefixOf_iff_prefix.1 hx
    · simp [hx] at hr1

theorem underText_head (b : GoString) (ns : List Node) :
    ∃ t rest, underText b ns = Node.Text (b ++ t) :: rest := by
  cases ns with
  | nil => exact ⟨[], [], by simp [underText]⟩
  | cons n ns =>
    cases n with
    | Text t => exact ⟨t, ns, rfl⟩
    | Any => exact ⟨[], (Node.Any) :: ns, by simp [underText]⟩
    | Super => exact ⟨[], (Node.Super) :: ns, by simp [underText]⟩
    | Single => exact ⟨[], (Node.Single) :: ns, by simp [underText]⟩
    | List chars not => exact ⟨[], (Node.List chars not) :: ns, by simp [underText]⟩
    | Range lo hi not => exact ⟨[], (Node.Range lo hi not) :: ns, by simp [underText]⟩
    | AnyOf alts => exact ⟨[], (Node.AnyOf alts) :: ns, by simp [underText]⟩

/-- C6, amended: for every root that holds none of the runes the lexer reads
as syntax outside a range and a brace group (`*`, `?`, `[`, `{` and the
backslash; a `]` or a `}` may stand in the root) and every catalog pattern,
the matcher matches a path only if the path begins with the lower-cased
root; and the matcher exists, that is `glob.MustCompile` returns, when the
root moreover holds no `utf8.RuneError`. -/
theorem matcher_of_plain_root_stays_under_root (R P : GoString)
    (hR : ∀ c ∈ R, readAsSyntax c = false) (hP : P ∈ patterns) :
    (RuneError ∉ R → ∃ g, glob_MustCompile (strings_ToLower (R ++ P)) '/' = some g) ∧
    ∀ (g : Glob) (s : GoString),
      glob_MustCompile (strings_ToLower (R ++ P)) '/' = some g → g.Match s = true →
        strings_ToLower R <+: s := by
  constructor
  · intro hrune
    exact Option.isSome_iff_exists.1 (compileFor_isSome R P hR hrune hP)
  · intro g s hg hm
    by_cases hne : R = []
    · subst hne
      exact List.nil_prefix
    · by_cases hrune : RuneError ∈ R
      · have hnone := compileFor_RuneError R P hrune
        unfold compileFor at hnone
        rw [hnone] at hg
        exact absurd hg (by simp)
      · have hc := compileFor_under_root R P hR hrune hne hP
        unfold compileFor at hc
        rw [hg] at hc
        cases hparse : Parse (strings_ToLower P) with
        | none => simp [hparse] at hc
        | some ns =>
          simp only [hparse, Option.map_some', Option.some.injEq] at hc
          obtain ⟨t, rest, hshape⟩ := underText_head (strings_ToLower R) ns
          rw [hc, hshape] at hm
          exact (List.prefix_append _ t).trans (Glob_Match_text_head _ rest '/' s hm)

/-- The witness of `matcher_of_plain_root_stays_under_root`: the root
`D:/a]b}/`, which the argument `D:/a]b}` gives, and the pattern
`**/Thumbs.db`. -/
theorem matcher_of_plain_root_stays_under_root_witness :
    overrideRoot "D:/a]b\x7d".toList = some "D:/a]b\x7d/".toList ∧
    (RuneError ∉ "D:/a]b\x7d/".toList →
      ∃ g, glob_MustCompile (strings_ToLower ("D:/a]b\x7d/".toList ++ "**/Thumbs.db".toList)) '/' =
        some g) ∧
    ∀ (g : Glob) (s : GoString),
      glob_MustCompile (strings_ToLower ("D:/a]b\x7d/".toList ++ "**/Thumbs.db".toList)) '/' =
          some g →
        g.Match s = true → strings_ToLower "D:/a]b\x7d/".toList <+: s :=
  ⟨by decide,
    matcher_of_plain_root_stays_under_root "D:/a]b\x7d/".toList "**/Thumbs.db".toList (by decide)
      (by decide)⟩

/-- C6 as stated fails: the argument `D:/[ab]` gives the root `D:/[ab]/`,
whose matcher for `**/Thumbs.db` matches the path `d:/a/x/thumbs.db`, and this
path does not begin with the lower-cased root `d:/[ab]/`.  Each of the other
runes read as syntax takes a matcher out of its root in the same way: the
roots `D:/a*/`, `D:/a?/` and `D:/{a,b}/`, and the root that holds an escaping
backslash before its `b`. -/
theorem matcher_of_bracket_root_leaves_root :
    (overrideRoot "D:/[ab]".toList = some "D:/[ab]/".toList ∧
      ((glob_MustCompile (strings_ToLower ("D:/[ab]/".toList ++ "**/Thumbs.db".toList)) '/').map
        (fun g => g.Match "d:/a/x/thumbs.db".toList)) = some true ∧
      ¬ (strings_ToLower "D:/[ab]/".toList <+: "d:/a/x/thumbs.db".toList)) ∧
    (overrideRoot "D:/a*".toList = some "D:/a*/".toList ∧
      ((glob_MustCompile (strings_ToLower ("D:/a*/".toList ++ "**/Thumbs.db".toList)) '/').map
        (fun g => g.Match "d:/ab/x/thumbs.db".toList)) = some true ∧
      ¬ (strings_ToLower "D:/a*/".toList <+: "d:/ab/x/thumbs.db".toList)) ∧
    (overrideRoot "D:/a?".toList = some "D:/a?/".toList ∧
      ((glob_MustCompile (strings_ToLower ("D:/a?/".toList ++ "**/Thumbs.db".toList)) '/').map
        (fun g => g.Match "d:/ab/x/thumbs.db".toList)) = some true ∧
      ¬ (strings_ToLower "D:/a?/".toList <+: "d:/ab/x/thumbs.db".toList)) ∧
    (overrideRoot "D:/\x7ba,b\x7d".toList = some "D:/\x7ba,b\x7d/".toList ∧
      ((glob_MustCompile (strings_ToLower ("D:/\x7ba,b\x7d/".toList ++ "**/Thumbs.db".toList)) '/').map
        (fun g => g.Match "d:/a/x/thumbs.db".toList)) = some true ∧
      ¬ (strings_ToLower "D:/\x7ba,b\x7d/".toList <+: "d:/a/x/thumbs.db".toList)) ∧
    (((glob_MustCompile
          (strings_ToLower (['D', ':', '/', 'a', '\\', 'b', '/'] ++ "**/Thumbs.db".toList))
          '/').map
        (fun g => g.Match "d:/ab/x/thumbs.db".toList)) = some true ∧
      ¬ (strings_ToLower ['D', ':', '/', 'a', '\\', 'b', '/'] <+: "d:/ab/x/thumbs.db".toList)) := by
  decide

theorem mem_files_of_fileHit (userDirs : List GoString) (R : GoString) (walked : Walked)
    (order : List GoString) (res : Matched) (F P : GoString)
    (hres : classifyRoot userDirs R walked order { matchedDirs := [], matchedFiles := [] } = some res)
    (horder : order.Perm patterns) (hF : F ∈ walked.files) (hP : P ∈ patterns)
    (hhit : fileHit userDirs R P F = true) : F ∈ res.matchedFiles := by
  rw [(classifyRoot_eq userDirs R walked order _ res hres (fun Q hQ => horder.mem_iff.1 hQ)).2]
  simp only [List.nil_append, List.mem_flatMap, List.mem_filter]
  exact ⟨P, horder.mem_iff.2 hP, hF, hhit⟩

theorem classifyRoot_isSome (userDirs : List GoString) (R : GoString) (walked : Walked)
    (order : List GoString) (acc : Matched) (hR : ∀ c ∈ R, readAsSyntax c = false)
    (hrune : RuneError ∉ R) :
    ∃ res, classifyRoot userDirs R walked order acc = some res := by
  obtain ⟨mm, hmm⟩ := Option.isSome_iff_exists.1 (matcherMap_isSome R hR hrune)
  exact ⟨classify userDirs mm walked order acc, by simp [classifyRoot, hmm]⟩

theorem toLower_slash_getLast (R : GoString) (h : R.getLast? = some '/') :
    ∃ R', strings_ToLower R = R' ++ ['/'] := by
  obtain ⟨ys, hys⟩ := List.getLast?_eq_some_iff.1 h
  exact ⟨strings_ToLower ys, by rw [hys, strings_ToLower_append]; rfl⟩

theorem mem_filePaths_of_hasFile (name dir : GoString) (es : Entries)
    (h : es.hasFile name = true) :
    filepath_ToSlash (filepath_Join dir name) ∈ es.filePaths dir := by
  induction es with
  | nil => simp [Entries.hasFile] at h
  | file n rest ih =>
    simp only [Entries.hasFile, Bool.or_eq_true, beq_iff_eq] at h
    simp only [Entries.filePaths, List.mem_cons]
    rcases h with h | h
    · left
      rw [h]
    · right
      exact ih h
  | dir n children readErr rest _ ihr =>
    simp only [Entries.hasFile] at h
    simp only [Entries.filePaths, List.mem_append]
    right
    exact ihr h

theorem filepath_Clean_drive_root (label : Char) (hl : label.isAlpha = true) :
    filepath_Clean [label, ':', '/'] = [label, ':', '\\'] := by
  have h1 : label ≠ '/' := by
    intro h
    rw [h] at hl
    exact absurd hl (by decide)
  simp [filepath_Clean, volumeNameLen, hl, filepath_FromSlash, h1, os_IsPathSeparator,
    splitElements, List.splitOnP_cons, cleanStep, Separator, List.intercalate]

theorem filepath_Join_drive_root (label : Char) (name : GoString) (hl : label.isAlpha = true)
    (hsep : ∀ c ∈ name, os_IsPathSeparator c = false) (h0 : name ≠ [])
    (h1 : name ≠ ['.']) (h2 : name ≠ ['.', '.']) :
    filepath_ToSlash (filepath_Join [label, ':', '\\'] name) = [label, ':', '/'] ++ name := by
  have hl1 : label ≠ '/' := by
    intro h
    rw [h] at hl
    exact absurd hl (by decide)
  have hl2 : label ≠ '\\' := by
    intro h
    rw [h] at hl
    exact absurd hl (by decide)
  have hsplit : name.splitOnP os_IsPathSeparator = [name] :=
    List.splitOnP_eq_single _ _ (fun c hc => by simp [hsep c hc])
  have hmap : name.map (fun c => if c == Separator then '/' else c) = name := by
    conv_rhs => rw [← List.map_id name]
    apply List.map_congr_left
    intro c hc
    have := hsep c hc
    simp only [os_IsPathSeparator, Bool.or_eq_false_iff, beq_eq_false_iff_ne, ne_eq] at this
    simp [Separator, this.1]
  have hsp : splitElements ('\\' :: '\\' :: name) = [[], [], name] := by
    simp [splitElements, List.splitOnP_cons, os_IsPathSeparator, hsplit]
  have hfold : List.foldl (cleanStep true) [] [[], [], name] = [name] := by
    simp [cleanStep, h0, h1, h2]
  have hclean : filepath_Clean (label :: ':' :: '\\' :: '\\' :: name) =
      label :: ':' :: '\\' :: name := by
    simp [filepath_Clean, volumeNameLen, hl, filepath_FromSlash, hl1, os_IsPathSeparator,
      hsp, hfold, Separator, List.intercalate]
  unfold filepath_Join
  simp only [Separator, List.cons_append, List.nil_append] at hclean ⊢
  rw [hclean]
  simp only [filepath_ToSlash, List.map_cons, hmap]
  simp [Separator, hl2]

theorem name_of_thumbs_db (name : GoString)
    (hname : strings_ToLower name = "thumbs.db".toList) :
    (∀ c ∈ name, os_IsPathSeparator c = false) ∧ name ≠ [] ∧ name ≠ ['.'] ∧
      name ≠ ['.', '.'] := by
  refine ⟨?_, ?_, ?_, ?_⟩
  · intro c hc
    have hmem : c.toLower ∈ "thumbs.db".toList := by
      rw [← hname]
      exact List.mem_map.2 ⟨c, hc, rfl⟩
    by_cases h1 : c = '\\'
    · subst h1
      exact absurd hmem (by decide)
    · by_cases h2 : c = '/'
      · subst h2
        exact absurd hmem (by decide)
      · simp [os_IsPathSeparator, h1, h2]
  · intro h
    subst h
    exact absurd hname (by decide)
  · intro h
    subst h
    exact absurd hname (by decide)
  · intro h
    subst h
    exact absurd hname (by decide)

/-- C1, amended: for every root that is free of the special runes of the glob
syntax and of `utf8.RuneError`, ends in a slash, and is a drive root `X:/` or
any other root under which the walker writes a file of the root as the root
followed by the file's name, the matcher compiled for `**/Thumbs.db` matches
the lower-cased path of a file that sits directly in the root and is named
`Thumbs.db` in any letter case; and when the walk of the root returns no
error, the walk lists that file and the loop over the roots puts it in
`matchedFiles`. -/
theorem thumbs_db_in_root_is_matched (fs : FileSystem) (userDirs : List GoString)
    (R name : GoString) (order : List GoString) (children : Entries)
    (readErr : Option WalkError)
    (hR : ∀ c ∈ R, Special c = false) (hrune : RuneError ∉ R)
    (hslash : R.getLast? = some '/')
    (hname : strings_ToLower name = "thumbs.db".toList)
    (horder : order.Perm patterns)
    (hroot : fs (filepath_Clean R) = RootInfo.dir children readErr)
    (hwalk : (RootInfo.dir children readErr).hardError = false)
    (hentry : children.hasFile name = true)
    (hpath : (∃ label : Char, label.isAlpha = true ∧ R = [label, ':', '/']) ∨
      filepath_ToSlash (filepath_Join (filepath_Clean R) name) = R ++ name) :
    (∃ g, glob_MustCompile (strings_ToLower (R ++ "**/Thumbs.db".toList)) '/' = some g ∧
      g.Match (strings_ToLower (R ++ name)) = true) ∧
    (∃ walked, getAllDirsAndFiles fs R = Except.ok walked ∧ R ++ name ∈ walked.files) ∧
    ∃ res, classifyRoots fs userDirs [{ rootDir := R, order := order }]
        { matchedDirs := [], matchedFiles := [] } = some res ∧
      R ++ name ∈ res.matchedFiles := by
  have hR' := readAsSyntax_of_Special R hR
  have hne : R ≠ [] := by
    intro h
    rw [h] at hslash
    simp at hslash
  have hP : "**/Thumbs.db".toList ∈ patterns := by decide
  have hc := compileFor_under_root R "**/Thumbs.db".toList hR' hrune hne hP
  have hparse : Parse (strings_ToLower "**/Thumbs.db".toList) =
      some [Node.Super, Node.Text "/thumbs.db".toList] := rfl
  rw [hparse] at hc
  simp only [Option.map_some', underText] at hc
  obtain ⟨R', hlow⟩ := toLower_slash_getLast R hslash
  have hm : Glob.Match
      { nodes := [Node.Text (strings_ToLower R), Node.Super, Node.Text "/thumbs.db".toList],
        sep := '/' } (strings_ToLower (R ++ name)) = true := by
    simp only [Glob.Match, asPrefixSuffix, asText, strings_HasPrefix, strings_HasSuffix,
      Bool.and_eq_true, List.isPrefixOf_iff_prefix, List.isSuffixOf_iff_suffix]
    rw [strings_ToLower_append, hname]
    refine ⟨List.prefix_append _ _, ?_⟩
    rw [hlow]
    exact ⟨R', by simp⟩
  have hpath' : filepath_ToSlash (filepath_Join (filepath_Clean R) name) = R ++ name := by
    rcases hpath with ⟨label, hl, hRl⟩ | h
    · obtain ⟨hsep, h0, h1, h2⟩ := name_of_thumbs_db name hname
      rw [hRl, filepath_Clean_drive_root label hl]
      exact filepath_Join_drive_root label name hl hsep h0 h1 h2
    · exact h
  have hwalked : getAllDirsAndFiles fs R =
      Except.ok { dirs := (RootInfo.dir children readErr).dirPaths (filepath_Clean R),
                  files := children.filePaths (filepath_Clean R) } := by
    unfold getAllDirsAndFiles
    rw [hroot, filepath_WalkDir_soft _ _ hwalk]
    rfl
  have hfile : R ++ name ∈ children.filePaths (filepath_Clean R) := by
    rw [← hpath']
    exact mem_filePaths_of_hasFile name _ children hentry
  obtain ⟨mm, hmm⟩ := Option.isSome_iff_exists.1 (matcherMap_isSome R hR' hrune)
  refine ⟨⟨_, hc, hm⟩, ⟨_, hwalked, hfile⟩, ?_⟩
  have hres : classifyRoot userDirs R
      { dirs := (RootInfo.dir children readErr).dirPaths (filepath_Clean R),
        files := children.filePaths (filepath_Clean R) } order
      { matchedDirs := [], matchedFiles := [] } =
      some (classify userDirs mm
        { dirs := (RootInfo.dir children readErr).dirPaths (filepath_Clean R),
          files := children.filePaths (filepath_Clean R) } order
        { matchedDirs := [], matchedFiles := [] }) := by
    simp [classifyRoot, hmm]
  refine ⟨classify userDirs mm
      { dirs := (RootInfo.dir children readErr).dirPaths (filepath_Clean R),
        files := children.filePaths (filepath_Clean R) } order
      { matchedDirs := [], matchedFiles := [] }, ?_, ?_⟩
  · simp only [classifyRoots, hmm, hwalked]
  · apply mem_files_of_fileHit userDirs R _ order _ _ _ hres horder hfile hP
    have hs : endsWithSlash "**/Thumbs.db".toList = false := by decide
    have hd : ("**/Thumbs.db".toList == "**/Desktop.ini".toList) = false := by decide
    simp only [fileHit, hs, hc, hm, hd, Bool.not_false, Bool.true_and, Bool.false_and,
      Bool.and_self]

/-- The witness of `thumbs_db_in_root_is_matched`: the root `/vol1/` and the
discovered root `D:/`, each holding the file `Thumbs.db`. -/
theorem thumbs_db_in_root_is_matched_witness :
    ((∃ g, glob_MustCompile (strings_ToLower ("/vol1/".toList ++ "**/Thumbs.db".toList)) '/' =
        some g ∧
      g.Match (strings_ToLower ("/vol1/".toList ++ "Thumbs.db".toList)) = true) ∧
    (∃ walked, getAllDirsAndFiles
        (fun _ => RootInfo.dir (Entries.file "Thumbs.db".toList Entries.nil) none)
        "/vol1/".toList = Except.ok walked ∧
      "/vol1/".toList ++ "Thumbs.db".toList ∈ walked.files) ∧
    ∃ res, classifyRoots
        (fun _ => RootInfo.dir (Entries.file "Thumbs.db".toList Entries.nil) none) []
        [{ rootDir := "/vol1/".toList, order := patterns }]
        { matchedDirs := [], matchedFiles := [] } = some res ∧
      "/vol1/".toList ++ "Thumbs.db".toList ∈ res.matchedFiles) ∧
    classifyRoots
        (fun _ => RootInfo.dir (Entries.file "Thumbs.db".toList Entries.nil) none) []
        [{ rootDir := "/vol1/".toList, order := patterns }]
        { matchedDirs := [], matchedFiles := [] } =
      some { matchedDirs := [], matchedFiles := ["/vol1/Thumbs.db".toList] } ∧
    classifyRoots
        (fun _ => RootInfo.dir (Entries.file "THUMBS.DB".toList Entries.nil) none) []
        [{ rootDir := "D:/".toList, order := patterns }]
        { matchedDirs := [], matchedFiles := [] } =
      some { matchedDirs := [], matchedFiles := ["D:/THUMBS.DB".toList] } :=
  ⟨thumbs_db_in_root_is_matched
      (fun _ => RootInfo.dir (Entries.file "Thumbs.db".toList Entries.nil) none) []
      "/vol1/".toList "Thumbs.db".toList patterns
      (Entries.file "Thumbs.db".toList Entries.nil) none
      (by decide) (by decide) (by decide) (by decide) (List.Perm.refl _) rfl (by decide)
      (by decide) (Or.inr (by decide)),
    by decide, by decide⟩

/-- C1 as stated fails.  The argument `D:/` gives the root `D://`, which is
free of the special runes of the glob syntax; the walk of this root lists the
file `Thumbs.db` of the drive as `D:/Thumbs.db`, the matcher of
`d://**/thumbs.db` does not match `d:/thumbs.db`, and the file is not put in
`matchedFiles`.  The argument `D:/` followed by `utf8.RuneError` gives a root
that is free of the special runes too, and `glob.MustCompile` panics for it.
And under the root `/vol1/` a `Thumbs.db` that stands beside a directory that
cannot be read (an I/O error) is not put in `matchedFiles`, because the walk
of the root returns the error. -/
theorem thumbs_db_under_argument_root_is_missed :
    (overrideRoot "D:/".toList = some "D://".toList ∧
      (∀ c ∈ "D://".toList, Special c = false) ∧
      (getAllDirsAndFiles
          (fun _ => RootInfo.dir (Entries.file "Thumbs.db".toList Entries.nil) none)
          "D://".toList).toOption =
        some { dirs := ["D://".toList], files := ["D:/Thumbs.db".toList] } ∧
      ((glob_MustCompile (strings_ToLower ("D://".toList ++ "**/Thumbs.db".toList)) '/').map
        (fun g => g.Match (strings_ToLower "D:/Thumbs.db".toList))) = some false ∧
      classifyRoots
          (fun _ => RootInfo.dir (Entries.file "Thumbs.db".toList Entries.nil) none) []
          [{ rootDir := "D://".toList, order := patterns }]
          { matchedDirs := [], matchedFiles := [] } =
        some { matchedDirs := [], matchedFiles := [] }) ∧
    (overrideRoot ['D', ':', '/', RuneError] = some ['D', ':', '/', RuneError, '/'] ∧
      (∀ c ∈ ['D', ':', '/', RuneError, '/'], Special c = false) ∧
      (glob_MustCompile
          (strings_ToLower (['D', ':', '/', RuneError, '/'] ++ "**/Thumbs.db".toList))
          '/').isNone = true ∧
      classifyRoots
          (fun _ => RootInfo.dir (Entries.file "Thumbs.db".toList Entries.nil) none) []
          [{ rootDir := ['D', ':', '/', RuneError, '/'], order := patterns }]
          { matchedDirs := [], matchedFiles := [] } = none) ∧
    ((getAllDirsAndFiles
          (fun _ => RootInfo.dir
            (Entries.file "Thumbs.db".toList
              (Entries.dir "x".toList Entries.nil (some (WalkError.other "EIO".toList))
                Entries.nil)) none)
          "/vol1/".toList).toOption = none ∧
      classifyRoots
          (fun _ => RootInfo.dir
            (Entries.file "Thumbs.db".toList
              (Entries.dir "x".toList Entries.nil (some (WalkError.other "EIO".toList))
                Entries.nil)) none) []
          [{ rootDir := "/vol1/".toList, order := patterns }]
          { matchedDirs := [], matchedFiles := [] } =
        some { matchedDirs := [], matchedFiles := [] }) := by
  decide

theorem mem_matchNode_Text (sep : Char) (t s r : GoString)
    (h : r ∈ matchNode sep (Node.Text t) s) : s = t ++ r := by
  simp only [matchNode] at h
  by_cases ht : t.isPrefixOf s = true
  · simp only [ht, if_true, List.mem_singleton] at h
    rw [h]
    exact (List.prefix_iff_eq_append.1 (List.isPrefixOf_iff_prefix.1 ht)).symm
  · simp [ht] at h

theorem mem_matchNode_Super (sep : Char) (s r : GoString)
    (h : r ∈ matchNode sep Node.Super s) : ∃ m, s = m ++ r := by
  simp only [matchNode, List.mem_tails] at h
  obtain ⟨m, hm⟩ := h
  exact ⟨m, hm.symm⟩

theorem mem_matchNode_Any (sep : Char) (s r : GoString)
    (h : r ∈ matchNode sep Node.Any s) : ∃ m, s = m ++ r ∧ sep ∉ m := by
  simp only [matchNode, List.mem_map, List.mem_inits] at h
  obtain ⟨p, hp, rfl⟩ := h
  have hps : p <+: s := hp.trans (List.takeWhile_prefix _)
  refine ⟨p, (List.prefix_iff_eq_append.1 hps).symm, ?_⟩
  intro hmem
  have := List.mem_takeWhile_imp (hp.subset hmem)
  simp at this

theorem mem_matchSeq_cons (sep : Char) (n : Node) (ns : List Node) (s r : GoString) :
    r ∈ matchSeq sep (n :: ns) s ↔ ∃ r1 ∈ matchNode sep n s, r ∈ matchSeq sep ns r1 := by
  simp [matchSeq, List.mem_flatMap]

theorem matchSeq_accepts (sep : Char) (ns : List Node) (s : GoString) :
    (matchSeq sep ns s).any (fun rest => rest.isEmpty) = true ↔ [] ∈ matchSeq sep ns s := by
  simp only [List.any_eq_true, List.isEmpty_iff]
  constructor
  · rintro ⟨r, hr, rfl⟩
    exact hr
  · intro h
    exact ⟨[], h, rfl⟩

theorem lastSeg_append_slash (x w : GoString) (hw : '/' ∉ w) : lastSeg (x ++ '/' :: w) = w := by
  unfold lastSeg
  have h1 : (x ++ '/' :: w).reverse = w.reverse ++ '/' :: x.reverse := by simp
  have h2 : ∀ a ∈ w.reverse, (fun c => c != '/') a = true := by
    intro a ha
    have : a ≠ '/' := fun h => hw (h ▸ List.mem_reverse.1 ha)
    simpa using this
  rw [h1, List.takeWhile_append_of_pos h2]
  simp

theorem lastSeg_append_plain (x w : GoString) (hw : '/' ∉ w) :
    lastSeg (x ++ w) = lastSeg x ++ w := by
  unfold lastSeg
  have h2 : ∀ a ∈ w.reverse, (fun c => c != '/') a = true := by
    intro a ha
    have : a ≠ '/' := fun h => hw (h ▸ List.mem_reverse.1 ha)
    simpa using this
  rw [List.reverse_append, List.takeWhile_append_of_pos h2]
  simp

theorem miss_of_seg_PrefixSuffix (b q s : GoString) (hq : '/' ∉ q) (hs : lastSeg s ≠ q) :
    Glob.Match { nodes := [Node.Text b, Node.Super, Node.Text ('/' :: q)], sep := '/' } s =
      false := by
  rw [Bool.eq_false_iff]
  intro h
  simp only [Glob.Match, asPrefixSuffix, asText, strings_HasPrefix, strings_HasSuffix,
    Bool.and_eq_true, List.isSuffixOf_iff_suffix] at h
  obtain ⟨x, hx⟩ := h.2
  exact hs (by rw [← hx]; exact lastSeg_append_slash x q hq)

theorem miss_of_seg_suffix (b suf s : GoString) (hsuf : '/' ∉ suf)
    (hs : ¬ suf <:+ lastSeg s) :
    Glob.Match
      { nodes := [Node.Text b, Node.Super, Node.Text ['/'], Node.Any, Node.Text suf],
        sep := '/' } s = false := by
  rw [Bool.eq_false_iff]
  intro h
  have hnone : asPrefixSuffix
      [Node.Text b, Node.Super, Node.Text ['/'], Node.Any, Node.Text suf] = none := rfl
  simp only [Glob.Match, hnone, matchSeq_accepts, mem_matchSeq_cons] at h
  obtain ⟨r1, h1, r2, h2, r3, h3, r4, h4, r5, h5, h6⟩ := h
  have e1 := mem_matchNode_Text _ _ _ _ h1
  obtain ⟨m, e2⟩ := mem_matchNode_Super _ _ _ h2
  have e3 := mem_matchNode_Text _ _ _ _ h3
  obtain ⟨t, e4, ht⟩ := mem_matchNode_Any _ _ _ h4
  have e5 := mem_matchNode_Text _ _ _ _ h5
  simp only [matchSeq, List.mem_singleton] at h6
  subst h6
  apply hs
  have hseg : lastSeg s = t ++ suf := by
    rw [e1, e2, e3, e4, e5]
    have : b ++ (m ++ (['/'] ++ (t ++ (suf ++ [])))) = (b ++ m) ++ '/' :: (t ++ suf) := by simp
    rw [this]
    apply lastSeg_append_slash
    simp only [List.mem_append, not_or]
    exact ⟨ht, hsuf⟩
  rw [hseg]
  exact List.suffix_append _ _

theorem miss_of_seg_start (b pre s : GoString) (hpre : '/' ∉ pre)
    (hs : ¬ pre <+: lastSeg s) :
    Glob.Match
      { nodes := [Node.Text b, Node.Super, Node.Text ('/' :: pre), Node.Any], sep := '/' } s =
      false := by
  rw [Bool.eq_false_iff]
  intro h
  have hnone : asPrefixSuffix
      [Node.Text b, Node.Super, Node.Text ('/' :: pre), Node.Any] = none := rfl
  simp only [Glob.Match, hnone, matchSeq_accepts, mem_matchSeq_cons] at h
  obtain ⟨r1, h1, r2, h2, r3, h3, r4, h4, h6⟩ := h
  have e1 := mem_matchNode_Text _ _ _ _ h1
  obtain ⟨m, e2⟩ := mem_matchNode_Super _ _ _ h2
  have e3 := mem_matchNode_Text _ _ _ _ h3
  obtain ⟨t, e4, ht⟩ := mem_matchNode_Any _ _ _ h4
  simp only [matchSeq, List.mem_singleton] at h6
  subst h6
  apply hs
  have hseg : lastSeg s = pre ++ t := by
    rw [e1, e2, e3, e4]
    have : b ++ (m ++ ('/' :: pre ++ (t ++ []))) = (b ++ m) ++ '/' :: (pre ++ t) := by simp
    rw [this]
    apply lastSeg_append_slash
    simp only [List.mem_append, not_or]
    exact ⟨hpre, ht⟩
  rw [hseg]
  exact List.prefix_append _ _

theorem miss_of_seg_length (x w s : GoString) (hw : '/' ∉ w)
    (hs : (lastSeg s).length < w.length) :
    Glob.Match { nodes := [Node.Text (x ++ w), Node.Any], sep := '/' } s = false := by
  rw [Bool.eq_false_iff]
  intro h
  have hnone : asPrefixSuffix [Node.Text (x ++ w), Node.Any] = none := rfl
  simp only [Glob.Match, hnone, matchSeq_accepts, mem_matchSeq_cons] at h
  obtain ⟨r1, h1, r2, h2, h6⟩ := h
  have e1 := mem_matchNode_Text _ _ _ _ h1
  obtain ⟨t, e4, ht⟩ := mem_matchNode_Any _ _ _ h2
  simp only [matchSeq, List.mem_singleton] at h6
  subst h6
  have hseg : lastSeg s = lastSeg x ++ (w ++ t) := by
    rw [e1, e4]
    have : x ++ w ++ (t ++ []) = x ++ (w ++ t) := by simp
    rw [this]
    apply lastSeg_append_plain
    simp only [List.mem_append, not_or]
    exact ⟨hw, ht⟩
  rw [hseg] at hs
  simp only [List.length_append] at hs
  omega

theorem compileFor_miss (R P s : GoString) (ns : List Node)
    (hR : ∀ c ∈ R, readAsSyntax c = false) (hrune : RuneError ∉ R) (hne : R ≠ [])
    (hP : P ∈ patterns)
    (hparse : Parse (strings_ToLower P) = some ns)
    (hmiss : Glob.Match { nodes := underText (strings_ToLower R) ns, sep := '/' } s = false) :
    ∀ g, compileFor R P = some g → g.Match s = false := by
  intro g hg
  rw [compileFor_under_root R P hR hrune hne hP, hparse] at hg
  simp only [Option.map_some', Option.some.injEq] at hg
  rw [← hg]
  exact hmiss

theorem file_patterns_other_than_desktop :
    ∀ P ∈ patterns, endsWithSlash P = false → P ≠ "**/Desktop.ini".toList →
      P ∈ ["DumpStack.log*".toList, "**/*.ink".toList, "**/*.stackdump".toList,
        "**/Thumbs.db".toList, "**/Thumbs.db:encryptable".toList, "**/ehthumbs.db".toList,
        "**/ehthumbs_vista.db".toList, "**/*.icloud".toList, "**/._*".toList,
        "**/*~".toList, "**/.fuse_hidden*".toList, "**/.nfs*".toList, "**/*.tmp".toList,
        "**/~$*".toList] := by
  decide

theorem other_file_patterns_miss (R s : GoString) (hR : ∀ c ∈ R, readAsSyntax c = false)
    (hrune : RuneError ∉ R) (hne : R ≠ []) (hseg : lastSeg s = "desktop.ini".toList) :
    ∀ P ∈ patterns, endsWithSlash P = false → P ≠ "**/Desktop.ini".toList →
      ∀ g, compileFor R P = some g → g.Match s = false := by
  intro P hP hfile hnd
  have hmem := file_patterns_other_than_desktop P hP hfile hnd
  simp only [List.mem_cons, List.mem_singleton, List.not_mem_nil, or_false] at hmem
  rcases hmem with h | h | h | h | h | h | h | h | h | h | h | h | h | h <;> subst h
  · exact compileFor_miss R _ s [Node.Text "dumpstack.log".toList, Node.Any] hR hrune hne hP rfl
      (miss_of_seg_length _ "dumpstack.log".toList s (by decide) (by rw [hseg]; decide))
  · exact compileFor_miss R _ s
      [Node.Super, Node.Text ['/'], Node.Any, Node.Text ".ink".toList] hR hrune hne hP rfl
      (miss_of_seg_suffix _ ".ink".toList s (by decide) (by rw [hseg]; decide))
  · exact compileFor_miss R _ s
      [Node.Super, Node.Text ['/'], Node.Any, Node.Text ".stackdump".toList] hR hrune hne hP rfl
      (miss_of_seg_suffix _ ".stackdump".toList s (by decide) (by rw [hseg]; decide))
  · exact compileFor_miss R _ s [Node.Super, Node.Text "/thumbs.db".toList] hR hrune hne hP rfl
      (miss_of_seg_PrefixSuffix _ "thumbs.db".toList s (by decide) (by rw [hseg]; decide))
  · exact compileFor_miss R _ s [Node.Super, Node.Text "/thumbs.db:encryptable".toList]
      hR hrune hne hP rfl
      (miss_of_seg_PrefixSuffix _ "thumbs.db:encryptable".toList s (by decide)
        (by rw [hseg]; decide))
  · exact compileFor_miss R _ s [Node.Super, Node.Text "/ehthumbs.db".toList] hR hrune hne hP rfl
      (miss_of_seg_PrefixSuffix _ "ehthumbs.db".toList s (by decide) (by rw [hseg]; decide))
  · exact compileFor_miss R _ s [Node.Super, Node.Text "/ehthumbs_vista.db".toList]
      hR hrune hne hP rfl
      (miss_of_seg_PrefixSuffix _ "ehthumbs_vista.db".toList s (by decide)
        (by rw [hseg]; decide))
  · exact compileFor_miss R _ s
      [Node.Super, Node.Text ['/'], Node.Any, Node.Text ".icloud".toList] hR hrune hne hP rfl
      (miss_of_seg_suffix _ ".icloud".toList s (by decide) (by rw [hseg]; decide))
  · exact compileFor_miss R _ s [Node.Super, Node.Text "/._".toList, Node.Any] hR hrune hne hP rfl
      (miss_of_seg_start _ "._".toList s (by decide) (by rw [hseg]; decide))
  · exact compileFor_miss R _ s
      [Node.Super, Node.Text ['/'], Node.Any, Node.Text "~".toList] hR hrune hne hP rfl
      (miss_of_seg_suffix _ "~".toList s (by decide) (by rw [hseg]; decide))
  · exact compileFor_miss R _ s [Node.Super, Node.Text "/.fuse_hidden".toList, Node.Any]
      hR hrune hne hP rfl
      (miss_of_seg_start _ ".fuse_hidden".toList s (by decide) (by rw [hseg]; decide))
  · exact compileFor_miss R _ s [Node.Super, Node.Text "/.nfs".toList, Node.Any] hR hrune hne hP rfl
      (miss_of_seg_start _ ".nfs".toList s (by decide) (by rw [hseg]; decide))
  · exact compileFor_miss R _ s
      [Node.Super, Node.Text ['/'], Node.Any, Node.Text ".tmp".toList] hR hrune hne hP rfl
      (miss_of_seg_suffix _ ".tmp".toList s (by decide) (by rw [hseg]; decide))
  · exact compileFor_miss R _ s [Node.Super, Node.Text "/~$".toList, Node.Any] hR hrune hne hP rfl
      (miss_of_seg_start _ "~$".toList s (by decide) (by rw [hseg]; decide))

theorem desktop_matcher_seg (R s : GoString) (g : Glob)
    (hR : ∀ c ∈ R, readAsSyntax c = false) (hrune : RuneError ∉ R)
    (hne : R ≠ []) (hg : compileFor R "**/Desktop.ini".toList = some g)
    (hm : g.Match s = true) : lastSeg s = "desktop.ini".toList := by
  have hparse : Parse (strings_ToLower "**/Desktop.ini".toList) =
      some [Node.Super, Node.Text "/desktop.ini".toList] := rfl
  rw [compileFor_under_root R _ hR hrune hne (by decide), hparse] at hg
  simp only [Option.map_some', Option.some.injEq, underText] at hg
  rw [← hg] at hm
  simp only [Glob.Match, asPrefixSuffix, asText, strings_HasPrefix, strings_HasSuffix,
    Bool.and_eq_true, List.isSuffixOf_iff_suffix] at hm
  obtain ⟨x, hx⟩ := hm.2
  rw [← hx]
  exact lastSeg_append_slash x "desktop.ini".toList (by decide)

/-- C3: under a root that is free of the special runes of the glob syntax,
a walked file that the matcher of `**/Desktop.ini` matches is left out of
`matchedFiles` exactly when `filepath.Rel(userDir, filepath.Dir(file))` is `.`
for one of the user directories, that is when the directory of the file is
itself a user directory. -/
theorem desktop_ini_left_out_iff_in_user_dir (userDirs : List GoString) (R : GoString)
    (walked : Walked) (order : List GoString) (F : GoString)
    (hR : ∀ c ∈ R, Special c = false) (hne : R ≠ [])
    (horder : order.Perm patterns) (hF : F ∈ walked.files)
    (hmatch : ∃ g, glob_MustCompile (strings_ToLower (R ++ "**/Desktop.ini".toList)) '/' =
      some g ∧ g.Match (strings_ToLower F) = true) :
    ∃ res, classifyRoot userDirs R walked order { matchedDirs := [], matchedFiles := [] } = some res ∧
      (F ∉ res.matchedFiles ↔
        ∃ userDir ∈ userDirs,
          filepath_ToSlash ((filepath_Rel userDir (filepath_Dir F)).getD []) = ['.']) := by
  have hR' := readAsSyntax_of_Special R hR
  have hrune : RuneError ∉ R := by
    intro h
    obtain ⟨g, hg, _⟩ := hmatch
    have hnone := compileFor_RuneError R "**/Desktop.ini".toList h
    unfold compileFor at hnone
    rw [hnone] at hg
    exact absurd hg (by simp)
  obtain ⟨res, hres⟩ := classifyRoot_isSome userDirs R walked order
    { matchedDirs := [], matchedFiles := [] } hR' hrune
  refine ⟨res, hres, ?_⟩
  have hin : inUserDir userDirs F = true ↔
      ∃ userDir ∈ userDirs,
        filepath_ToSlash ((filepath_Rel userDir (filepath_Dir F)).getD []) = ['.'] := by
    simp [inUserDir, List.any_eq_true]
  rw [← hin]
  obtain ⟨g, hg, hm⟩ := hmatch
  have hg' : compileFor R "**/Desktop.ini".toList = some g := hg
  have hseg := desktop_matcher_seg R _ g hR' hrune hne hg' hm
  have hfiles := (classifyRoot_eq userDirs R walked order _ res hres
    (fun Q hQ => horder.mem_iff.1 hQ)).2
  constructor
  · intro hnot
    by_contra hout
    apply hnot
    apply mem_files_of_fileHit userDirs R walked order res F _ hres horder hF
      (by decide : "**/Desktop.ini".toList ∈ patterns)
    have hs : endsWithSlash "**/Desktop.ini".toList = false := by decide
    simp only [Bool.not_eq_true] at hout
    unfold fileHit
    rw [hs, hg']
    simp only [hm, hout]
    decide
  · intro hin' hmem
    rw [hfiles] at hmem
    simp only [List.nil_append, List.mem_flatMap, List.mem_filter] at hmem
    obtain ⟨P, hP, _, hhit⟩ := hmem
    have hP' : P ∈ patterns := horder.mem_iff.1 hP
    by_cases hs : endsWithSlash P = true
    · simp [fileHit, hs] at hhit
    · simp only [Bool.not_eq_true] at hs
      by_cases hd : P = "**/Desktop.ini".toList
      · subst hd
        unfold fileHit at hhit
        rw [hs, hg'] at hhit
        simp only [hm, hin'] at hhit
        exact absurd hhit (by decide)
      · cases hc : compileFor R P with
        | none => simp [fileHit, hc] at hhit
        | some g2 =>
          have := other_file_patterns_miss R _ hR' hrune hne hseg P hP' hs hd g2 hc
          simp [fileHit, hc, this] at hhit

/-- The witness of `desktop_ini_left_out_iff_in_user_dir`: the root `/vol1/`
with the user directory `/vol1/Users/alice/`.  The file
`/vol1/Users/alice/Desktop.ini` is left out and the file
`/vol1/Users/alice/sub/Desktop.ini` is in `matchedFiles`. -/
theorem desktop_ini_left_out_iff_in_user_dir_witness :
    (∃ res, classifyRoot ["/vol1/Users/alice/".toList] "/vol1/".toList
        { dirs := [],
          files := ["/vol1/Users/alice/Desktop.ini".toList,
            "/vol1/Users/alice/sub/Desktop.ini".toList] }
        patterns { matchedDirs := [], matchedFiles := [] } = some res ∧
      ("/vol1/Users/alice/Desktop.ini".toList ∉ res.matchedFiles ↔
        ∃ userDir ∈ ["/vol1/Users/alice/".toList],
          filepath_ToSlash ((filepath_Rel userDir
            (filepath_Dir "/vol1/Users/alice/Desktop.ini".toList)).getD []) = ['.'])) ∧
    classifyRoot ["/vol1/Users/alice/".toList] "/vol1/".toList
        { dirs := [],
          files := ["/vol1/Users/alice/Desktop.ini".toList,
            "/vol1/Users/alice/sub/Desktop.ini".toList] }
        patterns { matchedDirs := [], matchedFiles := [] } =
      some { matchedDirs := [], matchedFiles := ["/vol1/Users/alice/sub/Desktop.ini".toList] } ∧
    filepath_Rel "/vol1/Users/alice/".toList
        (filepath_Dir "/vol1/Users/alice/Desktop.ini".toList) = some ".".toList ∧
    filepath_Rel "/vol1/Users/alice/".toList
        (filepath_Dir "/vol1/Users/alice/sub/Desktop.ini".toList) = some "sub".toList :=
  ⟨desktop_ini_left_out_iff_in_user_dir ["/vol1/Users/alice/".toList] "/vol1/".toList
      { dirs := [],
        files := ["/vol1/Users/alice/Desktop.ini".toList,
          "/vol1/Users/alice/sub/Desktop.ini".toList] }
      patterns "/vol1/Users/alice/Desktop.ini".toList (by decide) (by decide)
      (List.Perm.refl _) (by decide)
      ⟨{ nodes := [Node.Text "/vol1/".toList, Node.Super, Node.Text "/desktop.ini".toList],
         sep := '/' }, rfl, by decide⟩,
    by decide, by decide, by decide⟩

end SysJunkCleaner
